import Mathlib

/-!
Verification of the similarity-clustering engine and file-lifecycle tracker of
the Image_Similarity_Search repository.

The Python sources (src/similarity.py, src/saver.py, src/tracker.py) are
shallowly embedded below.  Paths are modelled as strings (their pathlib string
form); image fingerprints are modelled as bit lists, with the external
imagehash library's subtraction operator modelled as the Hamming distance on
the flattened bit arrays; the filesystem state relevant to each function is
passed explicitly (an existence predicate for source files, and the list of
files copied so far for the freshly recreated output tree, which starts empty
because create_output_folders removes and recreates the output root).  Python's
set-based constructs, whose iteration order is unspecified, are modelled with
deterministic first-occurrence order; Python's sorted(..., reverse=True) is
modelled by a stable insertion sort, which realizes the same specification
(stable, descending by key).
-/

/-- Identifiers / file paths, in their string form. -/
abbrev FilePath' := String

/-- An image fingerprint: the flattened bit array of a perceptual hash. -/
abbrev Fingerprint := List Bool

/-- The distance of the external imagehash library: `hash1 - hash2` counts the
positions where the two flattened bit arrays differ (Hamming distance). -/
def hammingDistance (h1 h2 : Fingerprint) : Nat :=
  (h1.zip h2).countP (fun bb => bb.1 != bb.2)

/-- `are_similar` from src/similarity.py: the Hamming distance between the two
hashes is compared with the threshold. -/
def are_similar (hash1 hash2 : Fingerprint) (threshold : Int) : Bool :=
  decide ((hammingDistance hash1 hash2 : Int) ≤ threshold)

/-- `find_similar_pairs` from src/similarity.py: compare each image with every
other (the double loop over `i < j`), emitting the ordered pair
`(path_i, path_j)` whenever the hashes are similar. -/
def find_similar_pairs : List (FilePath' × Fingerprint) → Int → List (FilePath' × FilePath')
  | [], _ => []
  | x :: rest, threshold =>
    (rest.filterMap fun y =>
      if are_similar x.2 y.2 threshold then some (x.1, y.1) else none)
      ++ find_similar_pairs rest threshold

/-- Association-list lookup with first-binding-wins semantics; models lookup
in a Python dict (the dict itself is modelled so that the visible binding of a
key is its first occurrence in the list). -/
def alookup {α β : Type} [DecidableEq α] (k : α) : List (α × β) → Option β
  | [] => none
  | kv :: rest => if kv.1 = k then some kv.2 else alookup k rest

/-- State of the grouping loop of `group_similar_images`: the list of groups
(each tagged with an identity, standing for the identity of the Python list
object), the `path_to_group` dictionary mapping a path to the identity of the
group holding it, and a counter supplying fresh identities. -/
structure GBState where
  groups : List (Nat × List FilePath')
  p2g : List (FilePath' × Nat)
  next : Nat

/-- Members of the group with identity `i`. -/
def membersOf (st : GBState) (i : Nat) : List FilePath' :=
  (alookup i st.groups).getD []

/-- Replace the members of the group with identity `i` by appending `extra`
(models `list.append` / `list.extend` on the shared group object). -/
def updGroup (gs : List (Nat × List FilePath')) (i : Nat) (extra : List FilePath') :
    List (Nat × List FilePath') :=
  gs.map fun g => if g.1 = i then (g.1, g.2 ++ extra) else g

/-- One iteration of the `for path1, path2 in similar_pairs` loop of
`group_similar_images`: create a group, extend a group, or merge two groups. -/
def gbStep (st : GBState) (pr : FilePath' × FilePath') : GBState :=
  match alookup pr.1 st.p2g, alookup pr.2 st.p2g with
  | none, none =>
    ⟨st.groups ++ [(st.next, [pr.1, pr.2])],
     (pr.1, st.next) :: (pr.2, st.next) :: st.p2g, st.next + 1⟩
  | none, some g2 =>
    ⟨updGroup st.groups g2 [pr.1], (pr.1, g2) :: st.p2g, st.next⟩
  | some g1, none =>
    ⟨updGroup st.groups g1 [pr.2], (pr.2, g1) :: st.p2g, st.next⟩
  | some g1, some g2 =>
    if g1 = g2 then st
    else
      let m2 := membersOf st g2
      ⟨(updGroup st.groups g1 m2).filter (fun g => g.1 != g2),
       m2.map (fun p => (p, g1)) ++ st.p2g, st.next⟩

/-- The grouping loop of `group_similar_images`, run over all pairs. -/
def runPairs (pairs : List (FilePath' × FilePath')) : GBState :=
  pairs.foldl gbStep ⟨[], [], 0⟩

/-- Helper for `dedupFirst`. -/
def dedupFirstAux (seen : List FilePath') : List FilePath' → List FilePath'
  | [] => []
  | x :: xs =>
    if x ∈ seen then dedupFirstAux seen xs
    else x :: dedupFirstAux (x :: seen) xs

/-- Models `list(set(group))`: duplicate removal.  Python's set iteration
order is unspecified; the model fixes first-occurrence order. -/
def dedupFirst (l : List FilePath') : List FilePath' :=
  dedupFirstAux [] l

/-- The deduplicated groups of more than one element (`result_groups` in
`group_similar_images`). -/
def resultGroups (pairs : List (FilePath' × FilePath')) : List (List FilePath') :=
  ((runPairs pairs).groups.map fun g => dedupFirst g.2).filter
    fun g => decide (1 < g.length)

/-- `internal_pairs` of `split_large_group`: the similar pairs with both
endpoints inside the large group. -/
def internalPairs (large_group : List FilePath') (similar_pairs : List (FilePath' × FilePath')) :
    List (FilePath' × FilePath') :=
  similar_pairs.filter fun pr => decide (pr.1 ∈ large_group) && decide (pr.2 ∈ large_group)

/-- `connection_count` of `split_large_group`: the number of internal pairs
touching a path (a pair touching it on both sides counts twice). -/
def connectionCount (ip : List (FilePath' × FilePath')) (p : FilePath') : Nat :=
  ip.countP (fun pr => pr.1 == p) + ip.countP (fun pr => pr.2 == p)

/-- Stable descending insertion by key: `x` goes in front of the first element
with a strictly smaller key. -/
def insertDesc (key : FilePath' → Nat) (x : FilePath') : List FilePath' → List FilePath'
  | [] => [x]
  | y :: ys => if key y < key x then x :: y :: ys else y :: insertDesc key x ys

/-- Models Python's `sorted(l, key=key, reverse=True)`: a stable sort,
descending by key (left-to-right insertion keeps the original order of
equal-key elements). -/
def sortDesc (key : FilePath' → Nat) (l : List FilePath') : List FilePath' :=
  l.foldl (fun acc x => insertDesc key x acc) []

/-- One step of the scan of `internal_pairs` building the `connected` set of a
seed: an endpoint directly linked to the seed is collected when it is not yet
used (set semantics, modelled with first-occurrence order). -/
def connStep (seed : FilePath') (used : List FilePath') (acc : List FilePath')
    (pr : FilePath' × FilePath') : List FilePath' :=
  if pr.1 = seed ∧ pr.2 ∉ used then (if pr.2 ∈ acc then acc else acc ++ [pr.2])
  else if pr.2 = seed ∧ pr.1 ∉ used then (if pr.1 ∈ acc then acc else acc ++ [pr.1])
  else acc

/-- One step of the `for path in connected` loop: append the path to the
cluster and mark it used, unless it is used already. -/
def growStep (st : List FilePath' × List FilePath') (path : FilePath') :
    List FilePath' × List FilePath' :=
  if path ∈ st.2 then st else (st.1 ++ [path], st.2 ++ [path])

/-- State of the seed-growth pass of `split_large_group`. -/
structure SplitState where
  clusters : List (List FilePath')
  used : List FilePath'

/-- One iteration of the `for seed_path in sorted_paths` loop of
`split_large_group`: skip used seeds; otherwise grow a one-hop cluster around
the seed and keep it when it has more than one member. -/
def seedStep (ip : List (FilePath' × FilePath')) (st : SplitState) (seed : FilePath') :
    SplitState :=
  if seed ∈ st.used then st
  else
    let used1 := st.used ++ [seed]
    let connected := ip.foldl (connStep seed used1) []
    let grown := connected.foldl growStep ([seed], used1)
    ⟨if 1 < grown.1.length then st.clusters ++ [grown.1] else st.clusters, grown.2⟩

/-- The whole seed-growth pass of `split_large_group`. -/
def seedPass (ip : List (FilePath' × FilePath')) (sorted_paths : List FilePath') : SplitState :=
  sorted_paths.foldl (seedStep ip) ⟨[], []⟩

/-- The `remaining` list of `split_large_group`: members of the large group
not visited by the seed-growth pass. -/
def splitRemaining (large_group : List FilePath') (similar_pairs : List (FilePath' × FilePath')) :
    List FilePath' :=
  let ip := internalPairs large_group similar_pairs
  large_group.filter fun p =>
    decide (p ∉ (seedPass ip (sortDesc (connectionCount ip) large_group)).used)

/-- `split_large_group` from src/similarity.py: restrict the pairs to the
group, sort members by descending internal degree, grow one-hop clusters
around unvisited seeds, append the leftover members as one cluster when at
least two remain, and fall back to the unsplit group when no cluster
resulted. -/
def split_large_group (large_group : List FilePath')
    (similar_pairs : List (FilePath' × FilePath')) : List (List FilePath') :=
  let ip := internalPairs large_group similar_pairs
  let st := seedPass ip (sortDesc (connectionCount ip) large_group)
  let remaining := splitRemaining large_group similar_pairs
  let clusters := if 1 < remaining.length then st.clusters ++ [remaining] else st.clusters
  if clusters.isEmpty then [large_group] else clusters

/-- `group_similar_images` from src/similarity.py: build groups by merging
pairs, deduplicate, drop singletons, and split groups of more than 20
members. -/
def group_similar_images (similar_pairs : List (FilePath' × FilePath')) :
    List (List FilePath') :=
  if similar_pairs.isEmpty then []
  else
    (resultGroups similar_pairs).flatMap fun g =>
      if 20 < g.length then split_large_group g similar_pairs else [g]

/-- Characters kept by the sanitizing regex `[^\w\.-]` of `path_to_filename`
(src/saver.py): word characters, dots and dashes.  Python's `\w` additionally
matches non-ASCII word characters; the model covers the ASCII behaviour, which
is all the claims exercise. -/
def isKeptChar (c : Char) : Bool := c.isAlphanum || c == '_' || c == '.' || c == '-'

/-- One character of `re.sub(r'[^\w\.-]', '_', path_str)`. -/
def sanitizeChar (c : Char) : Char := if isKeptChar c then c else '_'

/-- Helper for `collapseUnderscores`; `prev` is the previously kept character. -/
def collapseAux : Char → List Char → List Char
  | _, [] => []
  | prev, c :: rest =>
    if prev = '_' ∧ c = '_' then collapseAux prev rest else c :: collapseAux c rest

/-- `re.sub(r'_{2,}', '_', s)`: every maximal run of at least two underscores
becomes a single underscore. -/
def collapseUnderscores : List Char → List Char
  | [] => []
  | c :: rest => c :: collapseAux c rest

/-- Python's `str.strip('_')`: remove underscores at both ends. -/
def stripUnderscores (cs : List Char) : List Char :=
  ((cs.dropWhile fun c => c == '_').reverse.dropWhile fun c => c == '_').reverse

/-- `pathlib.Path.name`: the final path component (the part after the last
slash). -/
def baseName (s : String) : String :=
  ⟨(s.data.reverse.takeWhile fun c => c != '/').reverse⟩

/-- `path_to_filename` from src/saver.py (of which `_path_to_filename` in
src/tracker.py is an exact copy): sanitize the full path string, collapse
repeated underscores, strip underscores at the ends, and fall back to the base
name (or the literal "unknown_file") when the result is empty or longer than
200 characters. -/
def path_to_filename (file_path : FilePath') : String :=
  let safe := stripUnderscores (collapseUnderscores (file_path.data.map sanitizeChar))
  if safe.isEmpty || decide (200 < safe.length) then
    let nm := baseName file_path
    if nm.isEmpty then "unknown_file" else nm
  else ⟨safe⟩

/-- `pathlib.Path.stem` and `.suffix` of a file name: the name splits at the
last dot when that dot is neither the first nor the last character. -/
def splitStemSuffix (name : String) : String × String :=
  let cs := name.data
  match cs.reverse.findIdx? (fun c => c == '.') with
  | none => (name, "")
  | some j =>
    let i := cs.length - 1 - j
    if 0 < i ∧ i < cs.length - 1 then (⟨cs.take i⟩, ⟨cs.drop i⟩) else (name, "")

/-- Fueled decimal rendering helper. -/
def natToStrAux : Nat → Nat → List Char → List Char
  | 0, _, acc => acc
  | fuel + 1, n, acc =>
    if n < 10 then Nat.digitChar n :: acc
    else natToStrAux fuel (n / 10) (Nat.digitChar (n % 10) :: acc)

/-- Decimal rendering of a natural number, modelling Python's `str(counter)`
inside the collision f-string. -/
def natToStr (n : Nat) : String := ⟨natToStrAux (n + 1) n []⟩

/-- The `k`-th candidate file name of the collision loop: the safe name itself
for `k = 0`, and `stem_k` followed by the suffix for `k ≥ 1`. -/
def nameCandidate (stem suffix : String) (k : Nat) : String :=
  if k = 0 then stem ++ suffix else stem ++ "_" ++ natToStr k ++ suffix

/-- The `k`-th candidate destination path (the group folder joined with the
candidate name). -/
def destCandidate (folder stem suffix : String) (k : Nat) : String :=
  folder ++ "/" ++ nameCandidate stem suffix k

/-- Fueled form of the collision `while` loop shared by src/saver.py (lines
119-126, testing existence on disk) and src/tracker.py (lines 36-42, testing
membership in the mapping values); the two call sites differ only in the
collision domain `taken`.  Returns the index of the first free candidate. -/
def resolveGo (folder stem suffix : String) (taken : List String) : Nat → Nat → Nat
  | 0, k => k
  | fuel + 1, k =>
    if destCandidate folder stem suffix k ∈ taken then
      resolveGo folder stem suffix taken fuel (k + 1)
    else k

/-- Index of the destination candidate actually chosen by the collision loop
against the collision domain `taken`. -/
def resolveIdx (taken : List String) (folder stem suffix : String) : Nat :=
  resolveGo folder stem suffix taken (taken.length + 1) 0

/-- One file copy performed by `save_groups`: the source path, the group
folder, and the collision-resolved destination file name. -/
structure CopyEvent where
  src : FilePath'
  folder : String
  fname : String
  deriving DecidableEq

/-- The destination path string of a copy. -/
def renderDest (c : CopyEvent) : String := c.folder ++ "/" ++ c.fname

/-- The body of the per-file loop of `save_groups` (src/saver.py lines
106-131): skip missing sources, derive the safe name, resolve collisions
against the files already present in the freshly recreated output tree (the
destinations copied so far), and copy.  The output tree starts empty and the
sources live outside it, so `destination.exists()` holds exactly for already
performed copies. -/
def saveFileStep (srcExists : FilePath' → Bool) (folder : String)
    (copies : List CopyEvent) (p : FilePath') : List CopyEvent :=
  if srcExists p then
    let sp := splitStemSuffix (path_to_filename p)
    let k := resolveIdx (copies.map renderDest) folder sp.1 sp.2
    copies ++ [⟨p, folder, nameCandidate sp.1 sp.2 k⟩]
  else copies

/-- The copies performed by `save_groups` over the groups paired with their
group folders, in order. -/
def save_groups_copies (groups : List (List FilePath')) (folders : List String)
    (srcExists : FilePath' → Bool) : List CopyEvent :=
  (groups.zip folders).foldl
    (fun copies gf => gf.1.foldl (saveFileStep srcExists gf.2) copies) []

/-- Python dict assignment `m[k] = v`: overwrite the value in place when the
key is present, append the binding otherwise. -/
def updateAssoc (m : List (FilePath' × String)) (k : FilePath') (v : String) :
    List (FilePath' × String) :=
  if (alookup k m).isSome then m.map (fun kv => if kv.1 = k then (kv.1, v) else kv)
  else m ++ [(k, v)]

/-- The body of the per-file loop of `save_file_mapping` (src/tracker.py lines
26-44): skip missing sources, derive the safe name with the copied
`_path_to_filename`, resolve collisions against the destination values already
recorded in the mapping, and record the binding. -/
def mapFileStep (srcExists : FilePath' → Bool) (folder : String)
    (m : List (FilePath' × String)) (p : FilePath') : List (FilePath' × String) :=
  if srcExists p then
    let sp := splitStemSuffix (path_to_filename p)
    let k := resolveIdx (m.map Prod.snd) folder sp.1 sp.2
    updateAssoc m p (destCandidate folder sp.1 sp.2 k)
  else m

/-- The mapping built by `save_file_mapping` over the groups paired with their
group folders, as the ordered association list of the Python dict. -/
def save_file_mapping (groups : List (List FilePath')) (folders : List String)
    (srcExists : FilePath' → Bool) : List (FilePath' × String) :=
  (groups.zip folders).foldl
    (fun m gf => gf.1.foldl (mapFileStep srcExists gf.2) m) []

/-- `create_output_folders` from src/saver.py: the output root is destroyed
and recreated, then one numbered subfolder per group is created; returns the
folder paths. -/
def create_output_folders (output_dir : String) (num_groups : Nat) : List String :=
  (List.range num_groups).map fun i => output_dir ++ "/" ++ natToStr (i + 1)

/-- `save_groups` from src/saver.py composed with the `save_file_mapping` call
it ends with: the performed copies and the persisted mapping.  With no groups
the function returns after a warning, performing no copies and writing no
mapping. -/
def save_groups (groups : List (List FilePath')) (output_dir : String)
    (srcExists : FilePath' → Bool) : List CopyEvent × List (FilePath' × String) :=
  if groups.isEmpty then ([], [])
  else
    let folders := create_output_folders output_dir groups.length
    (save_groups_copies groups folders srcExists,
     save_file_mapping groups folders srcExists)

/-- JSON string escaping as performed by `json.dump(..., ensure_ascii=False)`:
quote, backslash and control characters are escaped (the five short escapes,
`\u00XX` for the other control characters); everything else is literal. -/
def escapeChar (c : Char) : List Char :=
  if c = '"' then ['\\', '"']
  else if c = '\\' then ['\\', '\\']
  else if c = '\x08' then ['\\', 'b']
  else if c = '\x0c' then ['\\', 'f']
  else if c = '\n' then ['\\', 'n']
  else if c = '\x0d' then ['\\', 'r']
  else if c = '\t' then ['\\', 't']
  else if c.toNat < 32 then
    ['\\', 'u', '0', '0', Nat.digitChar (c.toNat / 16), Nat.digitChar (c.toNat % 16)]
  else [c]

/-- A JSON string literal: quoted, escaped content. -/
def jstr (s : String) : List Char := '"' :: s.data.flatMap escapeChar ++ ['"']

/-- One `"key": "value"` item of the dumped object. -/
def dumpItem (kv : FilePath' × String) : List Char := jstr kv.1 ++ ':' :: ' ' :: jstr kv.2

/-- `json.dump(file_mapping, f, ensure_ascii=False, indent=2)` from
`save_file_mapping` (src/tracker.py lines 50-51): the serialized object text,
with two-space indentation. -/
def json_dumps (m : List (FilePath' × String)) : String :=
  match m with
  | [] => ⟨['{', '}']⟩
  | x :: rest =>
    ⟨'{' :: '\n' :: ' ' :: ' ' ::
      (dumpItem x ++
        (rest.flatMap fun kv => ',' :: '\n' :: ' ' :: ' ' :: dumpItem kv) ++
        ['\n', '}'])⟩

/-- The store step of `save_file_mapping`: the info file is opened in mode
`'w'`, so any prior content is fully overwritten by the dumped object. -/
def storeMapping (_priorContent : String) (m : List (FilePath' × String)) : String :=
  json_dumps m

/-- Whitespace skipping of the JSON parser. -/
def skipWs : List Char → List Char
  | [] => []
  | c :: rest =>
    if c = ' ' ∨ c = '\n' ∨ c = '\t' ∨ c = '\x0d' then skipWs rest else c :: rest

/-- Value of one hexadecimal digit. -/
def hexVal (c : Char) : Option Nat :=
  if '0' ≤ c ∧ c ≤ '9' then some (c.toNat - 48)
  else if 'a' ≤ c ∧ c ≤ 'f' then some (c.toNat - 87)
  else if 'A' ≤ c ∧ c ≤ 'F' then some (c.toNat - 55)
  else none

/-- Decoding of a single-character JSON escape. -/
def escDecode (e : Char) : Option Char :=
  if e = '"' then some '"'
  else if e = '\\' then some '\\'
  else if e = '/' then some '/'
  else if e = 'b' then some '\x08'
  else if e = 'f' then some '\x0c'
  else if e = 'n' then some '\n'
  else if e = 'r' then some '\x0d'
  else if e = 't' then some '\t'
  else none

/-- Four hexadecimal digits and the remaining input. -/
def parseHex4 : List Char → Option (Nat × List Char)
  | h1 :: h2 :: h3 :: h4 :: rest =>
    match hexVal h1, hexVal h2, hexVal h3, hexVal h4 with
    | some a, some b, some c, some d => some (((a * 16 + b) * 16 + c) * 16 + d, rest)
    | _, _, _, _ => none
  | _ => none

/-- Body of a JSON string literal after the opening quote: content up to the
closing quote, decoding escapes; unescaped control characters are rejected, as
by `json.load` in its default strict mode.  The fuel argument (one unit per
decoded character) only bounds the recursion. -/
def parseJSB : Nat → List Char → Option (List Char × List Char)
  | 0, _ => none
  | fuel + 1, cs =>
    match cs with
    | [] => none
    | c :: rest =>
      if c = '"' then some ([], rest)
      else if c = '\\' then
        match rest with
        | [] => none
        | e :: rest2 =>
          if e = 'u' then
            match parseHex4 rest2 with
            | some nr =>
              match parseJSB fuel nr.2 with
              | some sr => some (Char.ofNat nr.1 :: sr.1, sr.2)
              | none => none
            | none => none
          else
            match escDecode e with
            | some ch =>
              match parseJSB fuel rest2 with
              | some sr => some (ch :: sr.1, sr.2)
              | none => none
            | none => none
      else if c.toNat < 32 then none
      else
        match parseJSB fuel rest with
        | some sr => some (c :: sr.1, sr.2)
        | none => none

/-- A JSON string literal, leading whitespace allowed. -/
def parseJString (cs : List Char) : Option (List Char × List Char) :=
  match skipWs cs with
  | '"' :: rest => parseJSB (rest.length + 1) rest
  | _ => none

/-- One `"key": "value"` pair. -/
def parsePair (cs : List Char) : Option ((FilePath' × String) × List Char) :=
  match parseJString cs with
  | none => none
  | some kr =>
    match skipWs kr.2 with
    | ':' :: r2 =>
      match parseJString r2 with
      | none => none
      | some vr => some ((⟨kr.1⟩, ⟨vr.1⟩), vr.2)
    | _ => none

/-- Comma-separated pairs (fueled; the fuel bounds the item count). -/
def parseItems : Nat → List Char → Option (List (FilePath' × String) × List Char)
  | 0, _ => none
  | fuel + 1, cs =>
    match parsePair cs with
    | none => none
    | some kvr =>
      match skipWs kvr.2 with
      | ',' :: r2 =>
        match parseItems fuel r2 with
        | some lr => some (kvr.1 :: lr.1, lr.2)
        | none => none
      | r2 => some ([kvr.1], r2)

/-- Building a Python dict from parsed pairs in order: repeated keys keep
their first position and the last value. -/
def dictify (l : List (FilePath' × String)) : List (FilePath' × String) :=
  l.foldl (fun m kv => updateAssoc m kv.1 kv.2) []

/-- After the items: the closing brace and nothing but whitespace behind it;
the parsed pairs are assembled into a dict (`dictify`), as `json.load`
does. -/
def jsonAfterItems (res : Option (List (FilePath' × String) × List Char)) :
    Option (List (FilePath' × String)) :=
  match res with
  | none => none
  | some lr =>
    match skipWs lr.2 with
    | '}' :: r3 => if (skipWs r3).isEmpty then some (dictify lr.1) else none
    | _ => none

/-- Inside the object: either the immediate closing brace of an empty object,
or the comma-separated items followed by the closing brace. -/
def jsonBody (fuel : Nat) (r1 : List Char) : Option (List (FilePath' × String)) :=
  match r1 with
  | '}' :: r2 => if (skipWs r2).isEmpty then some [] else none
  | _ => jsonAfterItems (parseItems fuel r1)

/-- The load step of `find_files_to_delete`: `json.load` restricted to the
shape `save_file_mapping` writes, a flat object of string keys and string
values; anything else (or trailing data) yields `none`, the model of the
caught exception. -/
def jsonTop (fuel : Nat) (cs : List Char) : Option (List (FilePath' × String)) :=
  match cs with
  | '{' :: r => jsonBody fuel (skipWs r)
  | _ => none

/-- `json.load` on the whole info-file content. -/
def json_loads (s : String) : Option (List (FilePath' × String)) :=
  jsonTop (s.data.length + 1) (skipWs s.data)

/-- The core loop of `find_files_to_delete` (src/tracker.py lines 114-130):
collect the original paths whose recorded destination is not among the
enumerated files, comparing the path strings; write nothing when the list is
empty. -/
def deletionFromMapping (file_mapping : List (FilePath' × String))
    (existingFiles : List String) : Option (List FilePath') :=
  let files_to_delete := file_mapping.filterMap fun kv =>
    if kv.2 ∈ existingFiles then none else some kv.1
  if files_to_delete.isEmpty then none else some files_to_delete

/-- `find_files_to_delete` from src/tracker.py, over an explicit environment:
whether the info file and the output root exist, the content of the info file,
and the path strings of the files enumerated under the output root by
`rglob('*')`.  The result is the deletion list written to TO_DELETE_FILE, or
`none` when the function returns without writing one (missing info file,
missing output root, unreadable mapping, or nothing to delete). -/
def find_files_to_delete (infoFileExists outputDirExists : Bool)
    (infoContent : String) (existingFiles : List String) : Option (List FilePath') :=
  if !infoFileExists then none
  else if !outputDirExists then none
  else
    match json_loads infoContent with
    | none => none
    | some file_mapping => deletionFromMapping file_mapping existingFiles

/-- Split a character list on slashes (helper for `normalizePath`). -/
def splitSlashAux (cur : List Char) : List Char → List (List Char)
  | [] => [cur.reverse]
  | c :: rest =>
    if c = '/' then cur.reverse :: splitSlashAux [] rest else splitSlashAux (c :: cur) rest

/-- Join path components with slashes (helper for `normalizePath`). -/
def joinSlash : List (List Char) → List Char
  | [] => []
  | [c] => c
  | c :: rest => c ++ '/' :: joinSlash rest

/-- Modelled from the spec: the specification requires the reconciliation to
"compare using normalized absolute paths to avoid false positives from
representation differences".  This normalization collapses redundant
separators and `.` segments, so that distinct representations of one location
under the output root agree after normalization; the source of
`find_files_to_delete` contains no counterpart of it. -/
def normalizePath (s : String) : String :=
  let comps := (splitSlashAux [] s.data).filter fun c => !(c.isEmpty) && !(c == ['.'])
  let body : String := ⟨joinSlash comps⟩
  if s.data.head? = some '/' then "/" ++ body else body

/-- Two identifiers joined by one similar pair (in either orientation). -/
def pairAdj (pairs : List (FilePath' × FilePath')) (a b : FilePath') : Prop :=
  (a, b) ∈ pairs ∨ (b, a) ∈ pairs

/-- Connectivity via a chain of similar pairs (the reflexive-transitive
closure of `pairAdj`). -/
def pairConn (pairs : List (FilePath' × FilePath')) : FilePath' → FilePath' → Prop :=
  Relation.ReflTransGen (pairAdj pairs)

/-- An identifier occurring in some pair. -/
def mentionedIn (pairs : List (FilePath' × FilePath')) (p : FilePath') : Prop :=
  ∃ q, pairAdj pairs p q

/-- A source file named photo.jpg whose sanitized full path exceeds the
200-character cap, forcing the base-name fallback. -/
def longPathA : FilePath' := ⟨'/' :: (List.replicate 210 'a' ++ ('/' :: "photo.jpg".data))⟩

/-- A second such file in a different source directory. -/
def longPathB : FilePath' := ⟨'/' :: (List.replicate 210 'b' ++ ('/' :: "photo.jpg".data))⟩

/-- The invariant of the grouping loop: group identities are distinct and
fresh, `path_to_group` points into the groups, a path is assigned exactly when
it occurs in a processed pair, and two paths share a group exactly when they
are connected by the processed pairs. -/
structure GBInv (P : List (FilePath' × FilePath')) (st : GBState) : Prop where
  idsNodup : (st.groups.map Prod.fst).Nodup
  idsLt : ∀ g ∈ st.groups, g.1 < st.next
  memLook : ∀ g ∈ st.groups, ∀ p ∈ g.2, alookup p st.p2g = some g.1
  lookMem : ∀ p i, alookup p st.p2g = some i → ∃ m, (i, m) ∈ st.groups ∧ p ∈ m
  lookMent : ∀ p, (alookup p st.p2g).isSome ↔ mentionedIn P p
  sameConn : ∀ p q, (∃ g ∈ st.groups, p ∈ g.2 ∧ q ∈ g.2) ↔
    (pairConn P p q ∧ mentionedIn P p ∧ mentionedIn P q)

/-- `alookup` misses exactly the keys absent from the list. -/
lemma alookup_eq_none_iff {α β : Type} [DecidableEq α] (k : α) (m : List (α × β)) :
    alookup k m = none ↔ k ∉ m.map Prod.fst := by
  induction m with
  | nil => simp [alookup]
  | cons kv rest ih =>
    by_cases h : kv.1 = k
    · simp [alookup, h]
    · have hne : ¬k = kv.1 := fun e => h e.symm
      simp [alookup, h, ih, hne]

/-- Updating at an absent key appends the binding. -/
lemma updateAssoc_not_mem (m : List (FilePath' × String)) (k : FilePath') (v : String)
    (h : k ∉ m.map Prod.fst) : updateAssoc m k v = m ++ [(k, v)] := by
  have hl : alookup k m = none := (alookup_eq_none_iff k m).mpr h
  simp [updateAssoc, hl]

/-- Folding dict assignment over fresh keys appends them all. -/
lemma dictify_go_nodup (m acc : List (FilePath' × String))
    (h : ((acc ++ m).map Prod.fst).Nodup) :
    m.foldl (fun m kv => updateAssoc m kv.1 kv.2) acc = acc ++ m := by
  induction m generalizing acc with
  | nil => simp
  | cons kv rest ih =>
    have hk : kv.1 ∉ acc.map Prod.fst := by
      intro hmem
      rw [List.map_append, List.nodup_append] at h
      exact h.2.2 hmem (by simp)
    rw [List.foldl_cons, updateAssoc_not_mem acc kv.1 kv.2 hk]
    have h' : (((acc ++ [kv]) ++ rest).map Prod.fst).Nodup := by
      simpa using h
    rw [ih (acc ++ [kv]) h']
    simp

/-- Building the dict from pairs with distinct keys reproduces the pairs. -/
lemma dictify_nodup (m : List (FilePath' × String)) (h : (m.map Prod.fst).Nodup) :
    dictify m = m := by
  have := dictify_go_nodup m [] (by simpa using h)
  simpa [dictify] using this

/-- Decimal digits decode through `hexVal`. -/
lemma hexVal_digitChar (k : Nat) (hk : k < 16) : hexVal (Nat.digitChar k) = some k := by
  interval_cases k <;> decide

/-- The string-body parser decodes one escaped character and continues. -/
lemma parseJSB_escapeChar (c : Char) (rest : List Char) (fuel : Nat) :
    parseJSB (fuel + 1) (escapeChar c ++ rest) =
      (parseJSB fuel rest).map fun sr => (c :: sr.1, sr.2) := by
  by_cases h1 : c = '"'
  · subst h1
    cases h : parseJSB fuel rest <;> simp [escapeChar, parseJSB, escDecode, h]
  by_cases h2 : c = '\\'
  · subst h2
    cases h : parseJSB fuel rest <;> simp [escapeChar, parseJSB, escDecode, h]
  by_cases h3 : c = '\x08'
  · subst h3
    cases h : parseJSB fuel rest <;> simp [escapeChar, parseJSB, escDecode, h]
  by_cases h4 : c = '\x0c'
  · subst h4
    cases h : parseJSB fuel rest <;> simp [escapeChar, parseJSB, escDecode, h]
  by_cases h5 : c = '\n'
  · subst h5
    cases h : parseJSB fuel rest <;> simp [escapeChar, parseJSB, escDecode, h]
  by_cases h6 : c = '\x0d'
  · subst h6
    cases h : parseJSB fuel rest <;> simp [escapeChar, parseJSB, escDecode, h]
  by_cases h7 : c = '\t'
  · subst h7
    cases h : parseJSB fuel rest <;> simp [escapeChar, parseJSB, escDecode, h]
  by_cases h8 : c.toNat < 32
  · have e0 : hexVal '0' = some 0 := by decide
    have e1 : hexVal (Nat.digitChar (c.toNat / 16)) = some (c.toNat / 16) :=
      hexVal_digitChar _ (by omega)
    have e2 : hexVal (Nat.digitChar (c.toNat % 16)) = some (c.toNat % 16) :=
      hexVal_digitChar _ (Nat.mod_lt _ (by omega))
    have hch : Char.ofNat (c.toNat / 16 * 16 + c.toNat % 16) = c := by
      rw [show c.toNat / 16 * 16 + c.toNat % 16 = c.toNat from by omega, Char.ofNat_toNat]
    cases h : parseJSB fuel rest <;>
      simp [escapeChar, h1, h2, h3, h4, h5, h6, h7, h8, parseJSB, parseHex4, e0, e1, e2, hch, h]
  · cases h : parseJSB fuel rest <;>
      simp [escapeChar, h1, h2, h3, h4, h5, h6, h7, h8, parseJSB, h]

/-- Escaping never shortens a string. -/
lemma length_le_flatMap_escapeChar (s : List Char) :
    s.length ≤ (s.flatMap escapeChar).length := by
  induction s with
  | nil => simp
  | cons c s ih =>
    have hc : 1 ≤ (escapeChar c).length := by
      unfold escapeChar
      split_ifs <;> simp
    rw [List.flatMap_cons, List.length_append, List.length_cons]
    omega

/-- The string-body parser inverts the escaping of a whole string. -/
lemma parseJSB_escaped (s : List Char) :
    ∀ (fuel : Nat) (tail : List Char), s.length < fuel →
    parseJSB fuel (s.flatMap escapeChar ++ '"' :: tail) = some (s, tail) := by
  induction s with
  | nil =>
    intro fuel tail hf
    obtain ⟨f, rfl⟩ : ∃ f, fuel = f + 1 := ⟨fuel - 1, by omega⟩
    simp [parseJSB]
  | cons c s ih =>
    intro fuel tail hf
    obtain ⟨f, rfl⟩ : ∃ f, fuel = f + 1 := ⟨fuel - 1, by omega⟩
    rw [List.flatMap_cons, List.append_assoc, parseJSB_escapeChar,
      ih f tail (by simp at hf; omega)]
    rfl

/-- The string parser consumes exactly a dumped string literal. -/
lemma parseJString_jstr (s : String) (tail : List Char) :
    parseJString (jstr s ++ tail) = some (s.data, tail) := by
  have hsh : jstr s ++ tail = '"' :: (s.data.flatMap escapeChar ++ '"' :: tail) := by
    simp [jstr]
  rw [hsh]
  show parseJSB ((s.data.flatMap escapeChar ++ '"' :: tail).length + 1)
      (s.data.flatMap escapeChar ++ '"' :: tail) = some (s.data, tail)
  refine parseJSB_escaped s.data _ tail ?_
  have := length_le_flatMap_escapeChar s.data
  simp only [List.length_append, List.length_cons]
  omega

/-- The pair parser consumes exactly a dumped `"key": "value"` item. -/
lemma parsePair_dumpItem (kv : FilePath' × String) (tail : List Char) :
    parsePair (dumpItem kv ++ tail) = some (kv, tail) := by
  have h1 : dumpItem kv ++ tail = jstr kv.1 ++ (':' :: ' ' :: (jstr kv.2 ++ tail)) := by
    simp [dumpItem]
  rw [h1]
  unfold parsePair
  rw [parseJString_jstr]
  have h2 : parseJString (' ' :: (jstr kv.2 ++ tail)) = some (kv.2.data, tail) := by
    show parseJString (jstr kv.2 ++ tail) = some (kv.2.data, tail)
    exact parseJString_jstr kv.2 tail
  simp [skipWs, h2]

/-- The items parser ignores a leading whitespace character. -/
lemma parseItems_ws (fuel : Nat) (c : Char)
    (hc : c = ' ' ∨ c = '\n' ∨ c = '\t' ∨ c = '\x0d') (l : List Char) :
    parseItems fuel (c :: l) = parseItems fuel l := by
  rcases hc with rfl | rfl | rfl | rfl <;> cases fuel <;> rfl

/-- The items parser consumes exactly the dumped comma-separated items,
stopping in front of the closing brace. -/
lemma parseItems_dump (rest : List (FilePath' × String)) :
    ∀ (first : FilePath' × String) (fuel : Nat), rest.length < fuel →
    parseItems fuel
      (dumpItem first ++
        ((rest.flatMap fun kv => ',' :: '\n' :: ' ' :: ' ' :: dumpItem kv) ++ ['\n', '}'])) =
      some (first :: rest, ['}']) := by
  induction rest with
  | nil =>
    intro first fuel hf
    obtain ⟨f, rfl⟩ : ∃ f, fuel = f + 1 := ⟨fuel - 1, by omega⟩
    simp only [List.flatMap_nil, List.nil_append, parseItems, parsePair_dumpItem]
    simp [skipWs]
  | cons y more ih =>
    intro first fuel hf
    obtain ⟨f, rfl⟩ : ∃ f, fuel = f + 1 := ⟨fuel - 1, by omega⟩
    have hsplit :
        dumpItem first ++
          (((y :: more).flatMap fun kv => ',' :: '\n' :: ' ' :: ' ' :: dumpItem kv) ++
            ['\n', '}']) =
        dumpItem first ++
          (',' :: '\n' :: ' ' :: ' ' ::
            (dumpItem y ++
              ((more.flatMap fun kv => ',' :: '\n' :: ' ' :: ' ' :: dumpItem kv) ++
                ['\n', '}']))) := by
      simp [List.flatMap_cons]
    rw [hsplit]
    simp only [parseItems, parsePair_dumpItem]
    rw [show skipWs (',' :: '\n' :: ' ' :: ' ' ::
        (dumpItem y ++
          ((more.flatMap fun kv => ',' :: '\n' :: ' ' :: ' ' :: dumpItem kv) ++ ['\n', '}']))) =
        ',' :: '\n' :: ' ' :: ' ' ::
        (dumpItem y ++
          ((more.flatMap fun kv => ',' :: '\n' :: ' ' :: ' ' :: dumpItem kv) ++ ['\n', '}']))
      from by simp [skipWs]]
    simp only [parseItems_ws f '\n' (by simp), parseItems_ws f ' ' (by simp)]
    rw [ih y f (by simp at hf; omega)]

/-- A dumped item starts with a quote, so leading-whitespace skipping leaves
it alone. -/
lemma skipWs_dumpItem (kv : FilePath' × String) (l : List Char) :
    skipWs (dumpItem kv ++ l) = dumpItem kv ++ l := by
  obtain ⟨t, ht⟩ : ∃ t, dumpItem kv ++ l = '"' :: t :=
    ⟨kv.1.data.flatMap escapeChar ++ '"' :: ':' :: ' ' :: '"' ::
      (kv.2.data.flatMap escapeChar ++ '"' :: l), by simp [dumpItem, jstr]⟩
  rw [ht]
  simp [skipWs]

/-- Each dumped item contributes at least one character. -/
lemma length_le_flatMap_items (rest : List (FilePath' × String)) :
    rest.length ≤ (rest.flatMap fun kv => ',' :: '\n' :: ' ' :: ' ' :: dumpItem kv).length := by
  induction rest with
  | nil => simp
  | cons y more ih =>
    rw [List.flatMap_cons, List.length_append]
    simp only [List.length_cons]
    omega

/-- Loading the dumped object of a mapping with distinct keys reproduces the
mapping. -/
lemma json_loads_storeMapping (priorContent : String) (m : List (FilePath' × String))
    (h : (m.map Prod.fst).Nodup) :
    json_loads (storeMapping priorContent m) = some m := by
  cases m with
  | nil =>
    show json_loads (json_dumps []) = some []
    decide
  | cons x rest =>
    have hdata : (storeMapping priorContent (x :: rest)).data =
        '{' :: '\n' :: ' ' :: ' ' ::
          (dumpItem x ++
            ((rest.flatMap fun kv => ',' :: '\n' :: ' ' :: ' ' :: dumpItem kv) ++
              ['\n', '}'])) := by
      simp [storeMapping, json_dumps]
    have hlen : rest.length < (storeMapping priorContent (x :: rest)).data.length + 1 := by
      rw [hdata]
      have h2 := length_le_flatMap_items rest
      simp only [List.length_cons, List.length_append]
      omega
    have hmain := parseItems_dump rest x
      ((storeMapping priorContent (x :: rest)).data.length + 1) hlen
    unfold json_loads
    rw [hdata]
    rw [show skipWs ('{' :: '\n' :: ' ' :: ' ' ::
        (dumpItem x ++
          ((rest.flatMap fun kv => ',' :: '\n' :: ' ' :: ' ' :: dumpItem kv) ++ ['\n', '}']))) =
        '{' :: '\n' :: ' ' :: ' ' ::
        (dumpItem x ++
          ((rest.flatMap fun kv => ',' :: '\n' :: ' ' :: ' ' :: dumpItem kv) ++ ['\n', '}']))
      from by simp [skipWs]]
    rw [show jsonTop
        (('{' :: '\n' :: ' ' :: ' ' ::
          (dumpItem x ++
            ((rest.flatMap fun kv => ',' :: '\n' :: ' ' :: ' ' :: dumpItem kv) ++
              ['\n', '}']))).length + 1)
        ('{' :: '\n' :: ' ' :: ' ' ::
          (dumpItem x ++
            ((rest.flatMap fun kv => ',' :: '\n' :: ' ' :: ' ' :: dumpItem kv) ++
              ['\n', '}']))) =
        jsonBody
          (('{' :: '\n' :: ' ' :: ' ' ::
            (dumpItem x ++
              ((rest.flatMap fun kv => ',' :: '\n' :: ' ' :: ' ' :: dumpItem kv) ++
                ['\n', '}']))).length + 1)
          (skipWs ('\n' :: ' ' :: ' ' ::
            (dumpItem x ++
              ((rest.flatMap fun kv => ',' :: '\n' :: ' ' :: ' ' :: dumpItem kv) ++
                ['\n', '}']))))
      from rfl]
    rw [show skipWs ('\n' :: ' ' :: ' ' ::
        (dumpItem x ++
          ((rest.flatMap fun kv => ',' :: '\n' :: ' ' :: ' ' :: dumpItem kv) ++ ['\n', '}']))) =
        skipWs (dumpItem x ++
          ((rest.flatMap fun kv => ',' :: '\n' :: ' ' :: ' ' :: dumpItem kv) ++ ['\n', '}']))
      from rfl,
      skipWs_dumpItem x _]
    obtain ⟨t, ht⟩ : ∃ t, dumpItem x ++
        ((rest.flatMap fun kv => ',' :: '\n' :: ' ' :: ' ' :: dumpItem kv) ++ ['\n', '}']) =
        '"' :: t :=
      ⟨x.1.data.flatMap escapeChar ++ '"' :: ':' :: ' ' :: '"' ::
        (x.2.data.flatMap escapeChar ++ '"' ::
          ((rest.flatMap fun kv => ',' :: '\n' :: ' ' :: ' ' :: dumpItem kv) ++ ['\n', '}'])),
       by simp [dumpItem, jstr]⟩
    rw [ht]
    rw [show ∀ fuel, jsonBody fuel ('"' :: t) = jsonAfterItems (parseItems fuel ('"' :: t))
      from fun fuel => rfl]
    rw [← ht]
    rw [show ((storeMapping priorContent (x :: rest)).data.length + 1) =
        (('{' :: '\n' :: ' ' :: ' ' ::
          (dumpItem x ++
            ((rest.flatMap fun kv => ',' :: '\n' :: ' ' :: ' ' :: dumpItem kv) ++
              ['\n', '}']))).length + 1) from by rw [hdata]] at hmain
    rw [hmain]
    rw [show jsonAfterItems (some (x :: rest, ['}'])) = some (dictify (x :: rest)) from rfl]
    rw [dictify_nodup _ h]

/-- Claim C9: persisting a mapping with distinct keys (the store step of
`save_file_mapping`: the JSON object dumped into the info file, fully
overwriting any prior content) and loading it back (the load step of
`find_files_to_delete`) reproduces the mapping exactly: identical key and
value lists. -/
theorem c9_mapping_roundtrip (priorContent : String) (m : List (FilePath' × String))
    (h : (m.map Prod.fst).Nodup) :
    json_loads (storeMapping priorContent m) = some m :=
  json_loads_storeMapping priorContent m h

/-- Witness for C9 at a concrete mapping whose paths need escaping. -/
theorem c9_mapping_roundtrip_witness :
    ((([("a\"b", "c\\d"), ("e", "f\ng")] : List (FilePath' × String)).map
        Prod.fst).Nodup) ∧
    json_loads (storeMapping "stale content" [("a\"b", "c\\d"), ("e", "f\ng")]) =
      some [("a\"b", "c\\d"), ("e", "f\ng")] :=
  ⟨by decide, c9_mapping_roundtrip "stale content" _ (by decide)⟩

/-- Claim C10: when the output root does not exist, `find_files_to_delete`
returns after its warning without writing any deletion list, whatever the
info file state, the persisted mapping and the (necessarily empty) file
enumeration: no original path is marked for deletion. -/
theorem c10_missing_output_root (infoFileExists : Bool) (infoContent : String)
    (existingFiles : List String) :
    find_files_to_delete infoFileExists false infoContent existingFiles = none := by
  cases infoFileExists <;> rfl

/-- Membership in the deletion list computed from a loaded mapping. -/
lemma mem_deletionFromMapping (fm : List (FilePath' × String)) (files : List String)
    (p : FilePath') :
    (∃ l, deletionFromMapping fm files = some l ∧ p ∈ l) ↔
      ∃ v, (p, v) ∈ fm ∧ v ∉ files := by
  unfold deletionFromMapping
  by_cases hL : (fm.filterMap fun kv => if kv.2 ∈ files then none else some kv.1) = []
  · rw [hL]
    simp only [List.isEmpty_nil, if_pos]
    constructor
    · rintro ⟨l, hl, _⟩
      exact absurd hl (by simp)
    · rintro ⟨v, hv, hnv⟩
      have : p ∈ (fm.filterMap fun kv => if kv.2 ∈ files then none else some kv.1) := by
        refine List.mem_filterMap.mpr ⟨(p, v), hv, ?_⟩
        simp [hnv]
      rw [hL] at this
      exact absurd this (by simp)
  · rw [if_neg (by simpa [List.isEmpty_iff] using hL)]
    constructor
    · rintro ⟨l, hl, hp⟩
      obtain rfl : _ = l := Option.some.inj hl
      obtain ⟨⟨k, v⟩, hkv, hf⟩ := List.mem_filterMap.mp hp
      by_cases hv : v ∈ files
      · simp [hv] at hf
      · simp [hv] at hf
        exact ⟨v, hf ▸ hkv, hv⟩
    · rintro ⟨v, hv, hnv⟩
      refine ⟨_, rfl, ?_⟩
      refine List.mem_filterMap.mpr ⟨(p, v), hv, ?_⟩
      simp [hnv]

/-- The deletion step writes nothing exactly when every recorded destination
is still present. -/
lemma deletionFromMapping_eq_none (fm : List (FilePath' × String)) (files : List String) :
    deletionFromMapping fm files = none ↔ ∀ kv ∈ fm, kv.2 ∈ files := by
  unfold deletionFromMapping
  by_cases hL : (fm.filterMap fun kv => if kv.2 ∈ files then none else some kv.1) = []
  · rw [hL]
    simp only [List.isEmpty_nil, if_pos, true_iff]
    intro kv hkv
    by_contra hv
    have : kv.1 ∈ (fm.filterMap fun kv => if kv.2 ∈ files then none else some kv.1) := by
      refine List.mem_filterMap.mpr ⟨kv, hkv, ?_⟩
      simp [hv]
    rw [hL] at this
    exact absurd this (by simp)
  · rw [if_neg (by simpa [List.isEmpty_iff] using hL)]
    constructor
    · intro hcontra
      exact absurd hcontra (by simp)
    · intro hall
      exfalso
      apply hL
      rw [List.filterMap_eq_nil_iff]
      intro kv hkv
      simp [hall kv hkv]

/-- Counterexample to claim C1 as stated: for the mapping a → x, b → y with
only x present, the deletion list is exactly ["b"] — not ["a"] as the claim
says; and the comparison is exact string equality, not normalized-path
comparison: a destination recorded as "output_dir/./x.jpg" is marked deleted
even though the same location, normalized, is present as "output_dir/x.jpg". -/
theorem c1_counterexample :
    find_files_to_delete true true
        (storeMapping "" [("a", "output_dir/1/x.jpg"), ("b", "output_dir/1/y.jpg")])
        ["output_dir/1/x.jpg"] = some ["b"] ∧
    find_files_to_delete true true
        (storeMapping "" [("a", "output_dir/./x.jpg")])
        ["output_dir/x.jpg"] = some ["a"] ∧
    normalizePath "output_dir/./x.jpg" = normalizePath "output_dir/x.jpg" :=
  ⟨by decide, by decide, by decide⟩

/-- Claim C1 (amended): for every persisted mapping with distinct keys and
every enumeration of the output root, the deletion list contains exactly the
original paths whose recorded destination string is absent from the enumerated
path strings — destinations are compared with the enumerated files by exact
string equality (both sides are produced by the same path construction), not
by normalized absolute paths; and no list is written exactly when every
recorded destination is present.  In particular, for a mapping a → x, b → y
where only x exists, the deletion list is exactly [b]. -/
theorem c1_deletion_by_exact_string (priorContent : String)
    (m : List (FilePath' × String)) (files : List String)
    (h : (m.map Prod.fst).Nodup) :
    (∀ p, (∃ l, find_files_to_delete true true (storeMapping priorContent m) files =
        some l ∧ p ∈ l) ↔ ∃ v, (p, v) ∈ m ∧ v ∉ files) ∧
    (find_files_to_delete true true (storeMapping priorContent m) files = none ↔
      ∀ kv ∈ m, kv.2 ∈ files) := by
  have hload := json_loads_storeMapping priorContent m h
  have hstep : find_files_to_delete true true (storeMapping priorContent m) files =
      deletionFromMapping m files := by
    show (match json_loads (storeMapping priorContent m) with
      | none => none
      | some fm => deletionFromMapping fm files) = deletionFromMapping m files
    rw [hload]
  rw [hstep]
  exact ⟨fun p => mem_deletionFromMapping m files p, deletionFromMapping_eq_none m files⟩

/-- Witness for the amended C1 at the mapping a → x, b → y with only x
present. -/
theorem c1_deletion_by_exact_string_witness :
    ((([("a", "output_dir/1/x.jpg"), ("b", "output_dir/1/y.jpg")] :
        List (FilePath' × String)).map Prod.fst).Nodup) ∧
    ((∃ l, find_files_to_delete true true
        (storeMapping "" [("a", "output_dir/1/x.jpg"), ("b", "output_dir/1/y.jpg")])
        ["output_dir/1/x.jpg"] = some l ∧ "b" ∈ l) ↔
      ∃ v, ("b", v) ∈ ([("a", "output_dir/1/x.jpg"), ("b", "output_dir/1/y.jpg")] :
          List (FilePath' × String)) ∧ v ∉ ["output_dir/1/x.jpg"]) :=
  ⟨by decide, (c1_deletion_by_exact_string "" _ _ (by decide)).1 "b"⟩

/-- The cluster-growth fold only adds to the used set. -/
lemma mem_snd_foldl_growStep (l : List FilePath') (st : List FilePath' × List FilePath')
    (x : FilePath') (hx : x ∈ st.2) : x ∈ (l.foldl growStep st).2 := by
  induction l generalizing st with
  | nil => exact hx
  | cons y ys ih =>
    apply ih
    by_cases h : y ∈ st.2 <;> simp [growStep, h, hx]

/-- One seed step only adds to the used set. -/
lemma seedStep_used_mono (ip : List (FilePath' × FilePath')) (st : SplitState)
    (s x : FilePath') (hx : x ∈ st.used) : x ∈ (seedStep ip st s).used := by
  by_cases h : s ∈ st.used
  · simpa [seedStep, h] using hx
  · simp only [seedStep, h, if_neg, not_false_iff]
    exact mem_snd_foldl_growStep _ _ x (by simp [hx])

/-- A processed seed is marked used. -/
lemma seedStep_mem_used (ip : List (FilePath' × FilePath')) (st : SplitState)
    (s : FilePath') : s ∈ (seedStep ip st s).used := by
  by_cases h : s ∈ st.used
  · simp [seedStep, h]
  · simp only [seedStep, h, if_neg, not_false_iff]
    exact mem_snd_foldl_growStep _ _ s (by simp)

/-- The seed pass keeps everything ever marked used. -/
lemma foldl_seedStep_used_mono (ip : List (FilePath' × FilePath')) (l : List FilePath') :
    ∀ (st : SplitState) (x : FilePath'), x ∈ st.used →
    x ∈ (l.foldl (seedStep ip) st).used := by
  induction l with
  | nil => exact fun st x hx => hx
  | cons s ys ih => exact fun st x hx => ih _ x (seedStep_used_mono ip st s x hx)

/-- Every path fed to the seed loop ends up visited. -/
lemma foldl_seedStep_mem_used (ip : List (FilePath' × FilePath')) (l : List FilePath') :
    ∀ (st : SplitState) (p : FilePath'), p ∈ l → p ∈ (l.foldl (seedStep ip) st).used := by
  induction l with
  | nil => intro st p hp; cases hp
  | cons s ys ih =>
    intro st p hp
    rcases List.mem_cons.mp hp with rfl | hp'
    · exact foldl_seedStep_used_mono ip ys _ p (seedStep_mem_used ip st p)
    · exact ih _ p hp'

/-- After the seed-growth pass every processed path has been visited. -/
lemma seedPass_mem_used (ip : List (FilePath' × FilePath')) (l : List FilePath')
    (p : FilePath') (hp : p ∈ l) : p ∈ (seedPass ip l).used :=
  foldl_seedStep_mem_used ip l ⟨[], []⟩ p hp

/-- Inserting descending is a permutation of consing. -/
lemma insertDesc_perm (key : FilePath' → Nat) (x : FilePath') (l : List FilePath') :
    (insertDesc key x l).Perm (x :: l) := by
  induction l with
  | nil => exact List.Perm.refl _
  | cons y ys ih =>
    by_cases h : key y < key x
    · simp [insertDesc, h]
    · simp only [insertDesc, h, if_neg, not_false_iff]
      exact (ih.cons y).trans (List.Perm.swap x y ys)

/-- The insertion fold permutes the accumulator and the input. -/
lemma foldl_insertDesc_perm (key : FilePath' → Nat) (l : List FilePath') :
    ∀ acc, (l.foldl (fun acc x => insertDesc key x acc) acc).Perm (acc ++ l) := by
  induction l with
  | nil => intro acc; simp
  | cons x xs ih =>
    intro acc
    refine (ih (insertDesc key x acc)).trans ?_
    refine (List.Perm.append_right xs (insertDesc_perm key x acc)).trans ?_
    exact List.perm_middle.symm

/-- The stable descending sort permutes its input. -/
lemma sortDesc_perm (key : FilePath' → Nat) (l : List FilePath') :
    (sortDesc key l).Perm l := by
  have := foldl_insertDesc_perm key l []
  simpa [sortDesc] using this

/-- The seed-growth pass visits every member of the group, so the `remaining`
list of `split_large_group` is always empty. -/
lemma splitRemaining_eq_nil (large_group : List FilePath')
    (similar_pairs : List (FilePath' × FilePath')) :
    splitRemaining large_group similar_pairs = [] := by
  show large_group.filter (fun p =>
    decide (p ∉ (seedPass (internalPairs large_group similar_pairs)
      (sortDesc (connectionCount (internalPairs large_group similar_pairs))
        large_group)).used)) = []
  rw [List.filter_eq_nil_iff]
  intro p hp
  simp only [decide_eq_true_eq, Decidable.not_not]
  refine seedPass_mem_used _ _ p ?_
  exact (sortDesc_perm _ _).mem_iff.mpr hp

/-- Claim C7 (amended): the seed-growth pass of `split_large_group` visits
every member of the group (each unvisited member is itself taken as a seed),
so the `remaining` list is always empty and the leftover branch never adds a
sub-cluster; members touched by no internal pair end up as dropped singleton
seed clusters rather than being collected. -/
theorem c7_remaining_always_empty (large_group : List FilePath')
    (similar_pairs : List (FilePath' × FilePath')) :
    splitRemaining large_group similar_pairs = [] :=
  splitRemaining_eq_nil large_group similar_pairs

/-- Counterexample to claim C7 as stated: a 21-member group whose only
internal pair is (a01, a02).  The 19 members touched by no internal pair are
claimed to be collected into one final leftover sub-cluster; instead the
output is exactly [[a01, a02]] and, for instance, a03 appears in no returned
sub-cluster. -/
theorem c7_counterexample :
    split_large_group
      ["a01", "a02", "a03", "a04", "a05", "a06", "a07", "a08", "a09", "a10",
       "a11", "a12", "a13", "a14", "a15", "a16", "a17", "a18", "a19", "a20", "a21"]
      [("a01", "a02")] = [["a01", "a02"]] ∧
    (20 : Nat) <
      (["a01", "a02", "a03", "a04", "a05", "a06", "a07", "a08", "a09", "a10",
        "a11", "a12", "a13", "a14", "a15", "a16", "a17", "a18", "a19", "a20", "a21"] :
        List FilePath').length ∧
    ((split_large_group
      ["a01", "a02", "a03", "a04", "a05", "a06", "a07", "a08", "a09", "a10",
       "a11", "a12", "a13", "a14", "a15", "a16", "a17", "a18", "a19", "a20", "a21"]
      [("a01", "a02")]).all fun c => !(c.contains "a03")) = true :=
  ⟨by decide, by decide, by decide⟩

/-- Counterexample to claim C8 as stated: two source files both named
photo.jpg in different directories get safe names derived from their full
paths (dir1_photo.jpg and dir2_photo.jpg), so the group directory does not
contain photo.jpg and photo_1.jpg. -/
theorem c8_counterexample :
    ((save_groups [["/dir1/photo.jpg", "/dir2/photo.jpg"]] "output_dir" fun _ => true).1.map
      fun c => c.fname) = ["dir1_photo.jpg", "dir2_photo.jpg"] ∧
    ((save_groups [["/dir1/photo.jpg", "/dir2/photo.jpg"]] "output_dir" fun _ => true).1.map
      fun c => c.fname) ≠ ["photo.jpg", "photo_1.jpg"] :=
  ⟨by decide, by decide⟩

set_option maxRecDepth 8192 in
/-- Claim C8 (amended): the safe name is derived from the whole original
path, so two files named photo.jpg in different directories normally receive
the distinct names dir1_photo.jpg and dir2_photo.jpg with no collision; the
claimed photo.jpg / photo_1.jpg contents arise when both safe names fall back
to the base name — here because both sanitized full paths exceed 200
characters — in which case materializing the 2-file group produces exactly
the filenames photo.jpg and photo_1.jpg in the group directory. -/
theorem c8_long_path_fallback :
    longPathA ≠ longPathB ∧
    baseName longPathA = "photo.jpg" ∧
    baseName longPathB = "photo.jpg" ∧
    path_to_filename longPathA = "photo.jpg" ∧
    path_to_filename longPathB = "photo.jpg" ∧
    ((save_groups [[longPathA, longPathB]] "output_dir" fun _ => true).1.map
      fun c => c.fname) = ["photo.jpg", "photo_1.jpg"] :=
  ⟨by decide, by decide, by decide, by decide, by decide, by decide⟩

/-- The digit accumulator of `natToStrAux` only collects output. -/
lemma natToStrAux_acc (fuel : Nat) :
    ∀ (n : Nat) (acc : List Char), natToStrAux fuel n acc = natToStrAux fuel n [] ++ acc := by
  induction fuel with
  | zero => intro n acc; simp [natToStrAux]
  | succ f ih =>
    intro n acc
    by_cases h : n < 10
    · simp [natToStrAux, h]
    · simp only [natToStrAux, h, if_neg, not_false_iff]
      rw [ih (n / 10) [Nat.digitChar (n % 10)], ih (n / 10) (Nat.digitChar (n % 10) :: acc),
        List.append_assoc]
      rfl

/-- Code of a decimal digit character. -/
lemma digitChar_toNat (k : Nat) (hk : k < 10) : (Nat.digitChar k).toNat = k + 48 := by
  interval_cases k <;> rfl

/-- The decimal rendering evaluates back to the number. -/
lemma natToStrAux_val (fuel : Nat) :
    ∀ n : Nat, n < 10 ^ fuel →
    (natToStrAux fuel n []).foldl (fun a c => a * 10 + (c.toNat - 48)) 0 = n := by
  induction fuel with
  | zero =>
    intro n hn
    interval_cases n
    rfl
  | succ f ih =>
    intro n hn
    by_cases h : n < 10
    · simp [natToStrAux, h, digitChar_toNat n h]
    · have h10 : n / 10 < 10 ^ f := by
        rw [Nat.div_lt_iff_lt_mul (by norm_num)]
        calc n < 10 ^ (f + 1) := hn
        _ = 10 ^ f * 10 := by rw [pow_succ]
      simp only [natToStrAux, h, if_neg, not_false_iff]
      rw [natToStrAux_acc, List.foldl_append, ih (n / 10) h10]
      simp only [List.foldl_cons, List.foldl_nil]
      rw [digitChar_toNat (n % 10) (Nat.mod_lt _ (by norm_num))]
      omega

/-- The decimal rendering is injective. -/
lemma natToStr_inj (n m : Nat) (h : natToStr n = natToStr m) : n = m := by
  have hdata : natToStrAux (n + 1) n [] = natToStrAux (m + 1) m [] :=
    congrArg String.data h
  have hn : n < 10 ^ (n + 1) :=
    lt_of_lt_of_le (Nat.lt_pow_self (by norm_num) n)
      (Nat.pow_le_pow_right (by norm_num) (Nat.le_succ n))
  have hm : m < 10 ^ (m + 1) :=
    lt_of_lt_of_le (Nat.lt_pow_self (by norm_num) m)
      (Nat.pow_le_pow_right (by norm_num) (Nat.le_succ m))
  have := natToStrAux_val (n + 1) n hn
  rw [hdata, natToStrAux_val (m + 1) m hm] at this
  omega

/-- The decimal rendering is never empty. -/
lemma natToStr_data_ne_nil (n : Nat) : (natToStr n).data ≠ [] := by
  show natToStrAux (n + 1) n [] ≠ []
  by_cases h : n < 10
  · simp [natToStrAux, h]
  · simp only [natToStrAux, h, if_neg, not_false_iff]
    rw [natToStrAux_acc]
    simp

/-- Distinct candidate indices give distinct destination paths. -/
lemma destCandidate_inj (folder stem suffix : String) (j k : Nat)
    (h : destCandidate folder stem suffix j = destCandidate folder stem suffix k) : j = k := by
  have hdata := congrArg String.data h
  unfold destCandidate nameCandidate at hdata
  match j, k with
  | 0, 0 => rfl
  | 0, k + 1 =>
    exfalso
    simp only [if_pos, if_neg, Nat.succ_ne_zero, not_false_iff, String.data_append] at hdata
    have hlen := congrArg List.length hdata
    simp only [List.length_append] at hlen
    have hne := natToStr_data_ne_nil (k + 1)
    have : 0 < (natToStr (k + 1)).data.length := List.length_pos.mpr hne
    have h_ : ("_" : String).data.length = 1 := rfl
    omega
  | j + 1, 0 =>
    exfalso
    simp only [if_pos, if_neg, Nat.succ_ne_zero, not_false_iff, String.data_append] at hdata
    have hlen := congrArg List.length hdata
    simp only [List.length_append] at hlen
    have hne := natToStr_data_ne_nil (j + 1)
    have : 0 < (natToStr (j + 1)).data.length := List.length_pos.mpr hne
    have h_ : ("_" : String).data.length = 1 := rfl
    omega
  | j + 1, k + 1 =>
    simp only [if_neg, Nat.succ_ne_zero, not_false_iff, String.data_append,
      List.append_assoc] at hdata
    have h1 := List.append_cancel_left hdata
    have h2 := List.append_cancel_left h1
    have h3 := List.append_cancel_left h2
    have h4 := List.append_cancel_left h3
    have h5 := List.append_cancel_right h4
    exact natToStr_inj _ _ (String.ext h5)

/-- If a free candidate exists within the fuel window, the collision loop
returns a free candidate. -/
lemma resolveGo_not_mem (folder stem suffix : String) (taken : List String) :
    ∀ (fuel k : Nat),
    (∃ j, k ≤ j ∧ j < k + fuel ∧ destCandidate folder stem suffix j ∉ taken) →
    destCandidate folder stem suffix (resolveGo folder stem suffix taken fuel k) ∉ taken := by
  intro fuel
  induction fuel with
  | zero =>
    rintro k ⟨j, hj1, hj2, _⟩
    omega
  | succ f ih =>
    rintro k ⟨j, hj1, hj2, hj3⟩
    by_cases h : destCandidate folder stem suffix k ∈ taken
    · simp only [resolveGo, h, if_pos]
      apply ih (k + 1)
      have hjk : j ≠ k := fun e => hj3 (e ▸ h)
      exact ⟨j, by omega, by omega, hj3⟩
    · simp only [resolveGo, h, if_neg, not_false_iff]

/-- Pigeonhole: among the first `taken.length + 1` candidates one is free. -/
lemma exists_fresh_candidate (folder stem suffix : String) (taken : List String) :
    ∃ j, j ≤ taken.length ∧ destCandidate folder stem suffix j ∉ taken := by
  by_contra hall
  push_neg at hall
  have hmaps : ∀ j ∈ Finset.range (taken.length + 1),
      destCandidate folder stem suffix j ∈ taken.toFinset := by
    intro j hj
    rw [List.mem_toFinset]
    have hj' := Finset.mem_range.mp hj
    exact hall j (by omega)
  have hinj : Set.InjOn (fun j => destCandidate folder stem suffix j)
      ↑(Finset.range (taken.length + 1)) :=
    fun a _ b _ hab => destCandidate_inj folder stem suffix a b hab
  have hcard := Finset.card_le_card_of_injOn _ hmaps hinj
  rw [Finset.card_range] at hcard
  have := List.toFinset_card_le taken
  omega

/-- The destination chosen by the collision loop is not taken. -/
lemma resolveIdx_not_mem (taken : List String) (folder stem suffix : String) :
    destCandidate folder stem suffix (resolveIdx taken folder stem suffix) ∉ taken := by
  unfold resolveIdx
  apply resolveGo_not_mem
  obtain ⟨j, hj1, hj2⟩ := exists_fresh_candidate folder stem suffix taken
  exact ⟨j, by omega, by omega, hj2⟩

/-- The per-file copy loop of `save_groups` keeps the destination paths
pairwise distinct: each new destination is resolved against all existing
ones. -/
lemma foldl_saveFileStep_nodup (srcExists : FilePath' → Bool) (folder : String)
    (ps : List FilePath') :
    ∀ copies : List CopyEvent, (copies.map renderDest).Nodup →
    ((ps.foldl (saveFileStep srcExists folder) copies).map renderDest).Nodup := by
  induction ps with
  | nil => exact fun copies h => h
  | cons p ps ih =>
    intro copies h
    apply ih
    unfold saveFileStep
    by_cases he : srcExists p
    · simp only [he, if_pos, List.map_append, List.map_cons, List.map_nil]
      have hfresh := resolveIdx_not_mem (copies.map renderDest) folder
        (splitStemSuffix (path_to_filename p)).1 (splitStemSuffix (path_to_filename p)).2
      rw [List.nodup_append]
      refine ⟨h, List.nodup_singleton _, fun a ha hb => ?_⟩
      rw [List.mem_singleton] at hb
      subst hb
      exact hfresh ha
    · simp only [he, if_neg, Bool.false_eq_true, not_false_iff]
      exact h

/-- All destinations of `save_groups` are pairwise distinct path strings. -/
lemma save_groups_copies_nodup (groups : List (List FilePath')) (folders : List String)
    (srcExists : FilePath' → Bool) :
    ((save_groups_copies groups folders srcExists).map renderDest).Nodup := by
  unfold save_groups_copies
  have hgen : ∀ (gfs : List (List FilePath' × String)) (copies : List CopyEvent),
      (copies.map renderDest).Nodup →
      ((gfs.foldl (fun copies gf => gf.1.foldl (saveFileStep srcExists gf.2) copies)
        copies).map renderDest).Nodup := by
    intro gfs
    induction gfs with
    | nil => exact fun c h => h
    | cons gf gfs ih =>
      exact fun c h => ih _ (foldl_saveFileStep_nodup srcExists gf.2 gf.1 c h)
  exact hgen _ [] (by simp)

/-- Overwriting a present key leaves the key list unchanged. -/
lemma updateAssoc_some_fst (m : List (FilePath' × String)) (k : FilePath') (v : String)
    (h : (alookup k m).isSome) :
    (updateAssoc m k v).map Prod.fst = m.map Prod.fst := by
  simp only [updateAssoc, h, if_pos, List.map_map]
  apply List.map_congr_left
  intro kv _
  by_cases hkv : kv.1 = k <;> simp [Function.comp, hkv]

/-- Replacing the value at one key keeps the values pairwise distinct when
the new value is fresh. -/
lemma replace_snd_nodup (k : FilePath') (v : String) :
    ∀ (l : List (FilePath' × String)), (l.map Prod.fst).Nodup → (l.map Prod.snd).Nodup →
    v ∉ l.map Prod.snd →
    ((l.map fun kv => if kv.1 = k then (kv.1, v) else kv).map Prod.snd).Nodup := by
  intro l
  induction l with
  | nil => intro _ _ _; simp
  | cons kv t ih =>
    intro hk hs hv
    simp only [List.map_cons, List.nodup_cons] at hk hs
    simp only [List.map_cons, List.mem_cons, not_or] at hv
    by_cases hkv : kv.1 = k
    · have htun : (t.map fun kv => if kv.1 = k then (kv.1, v) else kv) = t := by
        conv_rhs => rw [← List.map_id t]
        apply List.map_congr_left
        intro kv' hkv'
        have : kv'.1 ≠ k := by
          intro he
          exact hk.1 (by rw [hkv, ← he]; exact List.mem_map_of_mem Prod.fst hkv')
        simp [this]
      simp only [List.map_cons, hkv, if_pos, htun, List.nodup_cons]
      exact ⟨hv.2, hs.2⟩
    · have hmem : ∀ x, x ∈ ((t.map fun kv => if kv.1 = k then (kv.1, v) else kv).map Prod.snd) →
          x ∈ t.map Prod.snd ∨ x = v := by
        intro x hx
        rw [List.map_map, List.mem_map] at hx
        obtain ⟨kv', hkv', heq⟩ := hx
        by_cases h' : kv'.1 = k
        · right
          rw [← heq]
          simp [Function.comp, h']
        · left
          rw [← heq]
          simp only [Function.comp, h', if_neg, not_false_iff]
          exact List.mem_map_of_mem Prod.snd hkv'
      simp only [List.map_cons, hkv, if_neg, not_false_iff, List.nodup_cons]
      constructor
      · intro hcontra
        rcases hmem kv.2 hcontra with hin | heq
        · exact hs.1 hin
        · exact hv.1 heq.symm
      · exact ih hk.2 hs.2 hv.2

/-- The mapping loop of `save_file_mapping` keeps the keys distinct and — the
collision loop resolving each new destination against all recorded values —
the destination values pairwise distinct. -/
lemma foldl_mapFileStep_nodup (srcExists : FilePath' → Bool) (folder : String)
    (ps : List FilePath') :
    ∀ m : List (FilePath' × String), (m.map Prod.fst).Nodup → (m.map Prod.snd).Nodup →
    ((ps.foldl (mapFileStep srcExists folder) m).map Prod.fst).Nodup ∧
    ((ps.foldl (mapFileStep srcExists folder) m).map Prod.snd).Nodup := by
  induction ps with
  | nil => exact fun m h1 h2 => ⟨h1, h2⟩
  | cons p ps ih =>
    intro m h1 h2
    have hstep : ((mapFileStep srcExists folder m p).map Prod.fst).Nodup ∧
        ((mapFileStep srcExists folder m p).map Prod.snd).Nodup := by
      unfold mapFileStep
      by_cases he : srcExists p
      · simp only [he, if_pos]
        have hfresh := resolveIdx_not_mem (m.map Prod.snd) folder
          (splitStemSuffix (path_to_filename p)).1 (splitStemSuffix (path_to_filename p)).2
        by_cases hl : (alookup p m).isSome
        · constructor
          · rw [updateAssoc_some_fst m p _ hl]
            exact h1
          · have hrw : updateAssoc m p
                (destCandidate folder (splitStemSuffix (path_to_filename p)).1
                  (splitStemSuffix (path_to_filename p)).2
                  (resolveIdx (m.map Prod.snd) folder (splitStemSuffix (path_to_filename p)).1
                    (splitStemSuffix (path_to_filename p)).2)) =
                m.map (fun kv => if kv.1 = p then (kv.1,
                  destCandidate folder (splitStemSuffix (path_to_filename p)).1
                    (splitStemSuffix (path_to_filename p)).2
                    (resolveIdx (m.map Prod.snd) folder
                      (splitStemSuffix (path_to_filename p)).1
                      (splitStemSuffix (path_to_filename p)).2)) else kv) := by
              simp [updateAssoc, hl]
            rw [hrw]
            exact replace_snd_nodup p _ m h1 h2 hfresh
        · have hnone : p ∉ m.map Prod.fst := by
            apply (alookup_eq_none_iff p m).mp
            cases halo : alookup p m
            · rfl
            · simp [halo] at hl
          rw [updateAssoc_not_mem m p _ hnone]
          constructor
          · rw [List.map_append]
            simp [List.nodup_append, h1, hnone]
          · rw [List.map_append]
            simp only [List.nodup_append, h2, List.map_cons, List.map_nil,
              List.nodup_singleton, true_and, List.disjoint_singleton]
            exact hfresh
      · simp only [he, Bool.false_eq_true, if_neg, not_false_iff]
        exact ⟨h1, h2⟩
    exact ih _ hstep.1 hstep.2

/-- The keys and destination values of the persisted mapping are pairwise
distinct. -/
lemma save_file_mapping_nodup (groups : List (List FilePath')) (folders : List String)
    (srcExists : FilePath' → Bool) :
    ((save_file_mapping groups folders srcExists).map Prod.fst).Nodup ∧
    ((save_file_mapping groups folders srcExists).map Prod.snd).Nodup := by
  unfold save_file_mapping
  have hgen : ∀ (gfs : List (List FilePath' × String)) (m : List (FilePath' × String)),
      (m.map Prod.fst).Nodup → (m.map Prod.snd).Nodup →
      ((gfs.foldl (fun m gf => gf.1.foldl (mapFileStep srcExists gf.2) m) m).map
        Prod.fst).Nodup ∧
      ((gfs.foldl (fun m gf => gf.1.foldl (mapFileStep srcExists gf.2) m) m).map
        Prod.snd).Nodup := by
    intro gfs
    induction gfs with
    | nil => exact fun m h1 h2 => ⟨h1, h2⟩
    | cons gf gfs ih =>
      intro m h1 h2
      have := foldl_mapFileStep_nodup srcExists gf.2 gf.1 m h1 h2
      exact ih _ this.1 this.2
  exact hgen _ [] (by simp) (by simp)

/-- Claim C4: within any single group directory the destination filenames
chosen by `save_groups` are pairwise distinct (no copy overwrites another),
even when source paths collapse to the same safe name — indeed the full
destination paths are globally distinct — and the destination values of the
mapping written by `save_file_mapping` are likewise pairwise distinct. -/
theorem c4_destination_uniqueness (groups : List (List FilePath')) (folders : List String)
    (srcExists : FilePath' → Bool) :
    ((save_groups_copies groups folders srcExists).map renderDest).Nodup ∧
    (save_groups_copies groups folders srcExists).Pairwise
      (fun c c' => c.folder = c'.folder → c.fname ≠ c'.fname) ∧
    ((save_file_mapping groups folders srcExists).map Prod.snd).Nodup := by
  refine ⟨save_groups_copies_nodup groups folders srcExists, ?_,
    (save_file_mapping_nodup groups folders srcExists).2⟩
  have h : (save_groups_copies groups folders srcExists).Pairwise
      (fun a b => renderDest a ≠ renderDest b) :=
    List.pairwise_map.mp (save_groups_copies_nodup groups folders srcExists)
  refine h.imp ?_
  intro a b hab hf hn
  exact hab (by rw [renderDest, renderDest, hf, hn])

/-- The sources copied by the per-file loop, in order: the existing paths. -/
lemma foldl_saveFileStep_srcs (srcExists : FilePath' → Bool) (folder : String)
    (ps : List FilePath') :
    ∀ copies : List CopyEvent,
    (ps.foldl (saveFileStep srcExists folder) copies).map CopyEvent.src =
      copies.map CopyEvent.src ++ ps.filter srcExists := by
  induction ps with
  | nil => intro copies; simp
  | cons p ps ih =>
    intro copies
    rw [List.foldl_cons]
    by_cases he : srcExists p
    · have hstep : saveFileStep srcExists folder copies p =
          copies ++ [⟨p, folder,
            nameCandidate (splitStemSuffix (path_to_filename p)).1
              (splitStemSuffix (path_to_filename p)).2
              (resolveIdx (copies.map renderDest) folder
                (splitStemSuffix (path_to_filename p)).1
                (splitStemSuffix (path_to_filename p)).2)⟩] := by
        simp [saveFileStep, he]
      rw [hstep, ih, List.filter_cons_of_pos he]
      simp
    · have hstep : saveFileStep srcExists folder copies p = copies := by
        simp [saveFileStep, he]
      rw [hstep, ih, List.filter_cons_of_neg (by simp [he])]

/-- A sublist of list-of-lists flattens to a sublist. -/
lemma Sublist.flatten_map {α : Type} {l l' : List (List α)} (h : l.Sublist l') :
    l.flatten.Sublist l'.flatten := by
  induction h with
  | slnil => exact List.Sublist.refl _
  | cons a _ ih =>
    rw [List.flatten_cons]
    exact ih.trans (List.sublist_append_right _ _)
  | cons₂ a _ ih =>
    rw [List.flatten_cons, List.flatten_cons]
    exact List.Sublist.append (List.Sublist.refl a) ih

/-- The group lists paired with folders form a sublist of the groups. -/
lemma zip_fst_sublist {α β : Type} (l1 : List α) (l2 : List β) :
    ((l1.zip l2).map Prod.fst).Sublist l1 := by
  induction l1 generalizing l2 with
  | nil => simp
  | cons x xs ih =>
    cases l2 with
    | nil => simp
    | cons y ys =>
      rw [List.zip_cons_cons, List.map_cons]
      exact (ih ys).cons₂ x

/-- Over pairwise-distinct source paths, one step of the mapping loop mirrors
one step of the copy loop: the collision domains (recorded values vs. files on
disk) coincide, so the same destination is chosen. -/
lemma foldl_file_step_eq (srcExists : FilePath' → Bool) (folder : String) (ps : List FilePath') :
    ∀ copies : List CopyEvent,
    ((copies.map CopyEvent.src) ++ ps).Nodup →
    ps.foldl (mapFileStep srcExists folder) (copies.map fun c => (c.src, renderDest c)) =
      (ps.foldl (saveFileStep srcExists folder) copies).map fun c => (c.src, renderDest c) := by
  induction ps with
  | nil => intro copies _; rfl
  | cons p ps ih =>
    intro copies h
    rw [List.foldl_cons, List.foldl_cons]
    by_cases he : srcExists p
    · have hvals : (copies.map fun c => (c.src, renderDest c)).map Prod.snd =
          copies.map renderDest := by
        rw [List.map_map]
        rfl
      have hkeys : (copies.map fun c => (c.src, renderDest c)).map Prod.fst =
          copies.map CopyEvent.src := by
        rw [List.map_map]
        rfl
      have hp : p ∉ copies.map CopyEvent.src := by
        rw [List.nodup_append] at h
        exact fun hin => h.2.2 hin (List.mem_cons_self p ps)
      have hstep_m : mapFileStep srcExists folder (copies.map fun c => (c.src, renderDest c)) p =
          (copies.map fun c => (c.src, renderDest c)) ++ [(p,
            destCandidate folder (splitStemSuffix (path_to_filename p)).1
              (splitStemSuffix (path_to_filename p)).2
              (resolveIdx (copies.map renderDest) folder (splitStemSuffix (path_to_filename p)).1
                (splitStemSuffix (path_to_filename p)).2))] := by
        unfold mapFileStep
        simp only [he, if_pos]
        rw [hvals]
        exact updateAssoc_not_mem _ p _ (by rw [hkeys]; exact hp)
      have hstep_c : saveFileStep srcExists folder copies p = copies ++ [⟨p, folder,
          nameCandidate (splitStemSuffix (path_to_filename p)).1
            (splitStemSuffix (path_to_filename p)).2
            (resolveIdx (copies.map renderDest) folder (splitStemSuffix (path_to_filename p)).1
              (splitStemSuffix (path_to_filename p)).2)⟩] := by
        simp [saveFileStep, he]
      rw [hstep_m, hstep_c]
      have hmapapp : (copies ++ [(⟨p, folder,
          nameCandidate (splitStemSuffix (path_to_filename p)).1
            (splitStemSuffix (path_to_filename p)).2
            (resolveIdx (copies.map renderDest) folder (splitStemSuffix (path_to_filename p)).1
              (splitStemSuffix (path_to_filename p)).2)⟩ : CopyEvent)]).map
            (fun c => (c.src, renderDest c)) =
          (copies.map fun c => (c.src, renderDest c)) ++ [(p,
            destCandidate folder (splitStemSuffix (path_to_filename p)).1
              (splitStemSuffix (path_to_filename p)).2
              (resolveIdx (copies.map renderDest) folder (splitStemSuffix (path_to_filename p)).1
                (splitStemSuffix (path_to_filename p)).2))] := by
        rw [List.map_append]
        rfl
      rw [← hmapapp]
      apply ih
      have hsrcs : (copies ++ [(⟨p, folder,
          nameCandidate (splitStemSuffix (path_to_filename p)).1
            (splitStemSuffix (path_to_filename p)).2
            (resolveIdx (copies.map renderDest) folder (splitStemSuffix (path_to_filename p)).1
              (splitStemSuffix (path_to_filename p)).2)⟩ : CopyEvent)]).map CopyEvent.src =
          copies.map CopyEvent.src ++ [p] := by
        rw [List.map_append]
        rfl
      rw [hsrcs, List.append_assoc]
      simpa using h
    · have hstep_m : mapFileStep srcExists folder
          (copies.map fun c => (c.src, renderDest c)) p =
          copies.map fun c => (c.src, renderDest c) := by
        simp [mapFileStep, he]
      have hstep_c : saveFileStep srcExists folder copies p = copies := by
        simp [saveFileStep, he]
      rw [hstep_m, hstep_c]
      apply ih
      refine List.Nodup.sublist ?_ h
      exact List.Sublist.append (List.Sublist.refl _) (List.sublist_cons_self p ps)

/-- Over pairwise-distinct source paths the whole mapping fold mirrors the
whole copy fold. -/
lemma foldl_group_step_eq (srcExists : FilePath' → Bool) :
    ∀ (gfs : List (List FilePath' × String)) (copies : List CopyEvent),
    ((copies.map CopyEvent.src) ++ ((gfs.map Prod.fst).flatten)).Nodup →
    gfs.foldl (fun m gf => gf.1.foldl (mapFileStep srcExists gf.2) m)
      (copies.map fun c => (c.src, renderDest c)) =
      (gfs.foldl (fun copies gf => gf.1.foldl (saveFileStep srcExists gf.2) copies)
        copies).map fun c => (c.src, renderDest c) := by
  intro gfs
  induction gfs with
  | nil => intro copies _; rfl
  | cons gf gfs ih =>
    intro copies h
    rw [List.foldl_cons, List.foldl_cons]
    have h1 : ((copies.map CopyEvent.src) ++ gf.1).Nodup := by
      refine List.Nodup.sublist ?_ h
      refine List.Sublist.append (List.Sublist.refl _) ?_
      rw [List.map_cons, List.flatten_cons]
      exact List.sublist_append_left _ _
    rw [foldl_file_step_eq srcExists gf.2 gf.1 copies h1]
    apply ih
    rw [foldl_saveFileStep_srcs]
    refine List.Nodup.sublist ?_ h
    rw [List.map_cons, List.flatten_cons, List.append_assoc]
    exact List.Sublist.append (List.Sublist.refl _)
      (List.Sublist.append (List.filter_sublist _) (List.Sublist.refl _))

/-- Counterexample to claim C2 as stated: with a duplicated source path in a
group, the two collision procedures diverge.  For the group
[b!a, b!a, b?a] (all three sanitizing to the safe name b_a) the copies land at
b_a, b_a_1 and b_a_2, while the mapping — whose dict assignment overwrote the
first record of b!a, making the value b_a free again — records b?a at b_a, a
destination that actually holds a copy of b!a. -/
theorem c2_counterexample :
    save_file_mapping [["b!a", "b!a", "b?a"]] ["o/1"] (fun _ => true) =
      [("b!a", "o/1/b_a_1"), ("b?a", "o/1/b_a")] ∧
    ((save_groups_copies [["b!a", "b!a", "b?a"]] ["o/1"] (fun _ => true)).map
      fun c => (c.src, renderDest c)) =
      [("b!a", "o/1/b_a"), ("b!a", "o/1/b_a_1"), ("b?a", "o/1/b_a_2")] ∧
    save_file_mapping [["b!a", "b!a", "b?a"]] ["o/1"] (fun _ => true) ≠
      ((save_groups_copies [["b!a", "b!a", "b?a"]] ["o/1"] (fun _ => true)).map
        fun c => (c.src, renderDest c)) :=
  ⟨by decide, by decide, by decide⟩

/-- Claim C2 (amended): when the source paths across the groups are pairwise
distinct — as the grouping stage guarantees — the mapping persisted by
`save_file_mapping` records each original path with exactly the destination
that `save_groups`' collision resolution copied that file to: the two
independently implemented procedures produce equal original→destination
records, both as general folds over any folder assignment and for
`save_groups` itself. -/
theorem c2_mapping_matches_copies (groups : List (List FilePath'))
    (folders : List String) (srcExists : FilePath' → Bool)
    (h : groups.flatten.Nodup) :
    save_file_mapping groups folders srcExists =
      ((save_groups_copies groups folders srcExists).map fun c => (c.src, renderDest c)) ∧
    ∀ output_dir,
      (save_groups groups output_dir srcExists).2 =
        ((save_groups groups output_dir srcExists).1.map fun c => (c.src, renderDest c)) := by
  have hmain : ∀ folders' : List String,
      save_file_mapping groups folders' srcExists =
        ((save_groups_copies groups folders' srcExists).map fun c => (c.src, renderDest c)) := by
    intro folders'
    unfold save_file_mapping save_groups_copies
    refine foldl_group_step_eq srcExists (groups.zip folders') [] ?_
    refine List.Nodup.sublist ?_ h
    simp only [List.map_nil, List.nil_append]
    exact Sublist.flatten_map (zip_fst_sublist groups folders')
  refine ⟨hmain folders, fun output_dir => ?_⟩
  unfold save_groups
  by_cases hg : groups.isEmpty
  · simp [hg]
  · simp only [hg, Bool.false_eq_true, if_neg, not_false_iff]
    exact hmain (create_output_folders output_dir groups.length)

/-- Witness for the amended C2: two distinct paths with colliding safe
names. -/
theorem c2_mapping_matches_copies_witness :
    (([["b!a", "b?a"]] : List (List FilePath')).flatten.Nodup) ∧
    save_file_mapping [["b!a", "b?a"]] ["o/1"] (fun _ => true) =
      ((save_groups_copies [["b!a", "b?a"]] ["o/1"] (fun _ => true)).map
        fun c => (c.src, renderDest c)) :=
  ⟨by decide, (c2_mapping_matches_copies [["b!a", "b?a"]] ["o/1"] (fun _ => true)
    (by decide)).1⟩

/-- The Hamming distance is symmetric. -/
lemma hammingDistance_comm (h1 h2 : Fingerprint) :
    hammingDistance h1 h2 = hammingDistance h2 h1 := by
  unfold hammingDistance
  induction h1 generalizing h2 with
  | nil => cases h2 <;> simp
  | cons a t ih =>
    cases h2 with
    | nil => simp
    | cons b t2 =>
      rw [List.zip_cons_cons, List.zip_cons_cons, List.countP_cons, List.countP_cons, ih t2]
      have : ((a, b).1 != (a, b).2) = ((b, a).1 != (b, a).2) := by
        cases a <;> cases b <;> rfl
      rw [this]

/-- Similarity is symmetric. -/
lemma are_similar_comm (ha hb : Fingerprint) (t : Int) :
    are_similar ha hb t = are_similar hb ha t := by
  unfold are_similar
  rw [hammingDistance_comm]

/-- A pair is emitted exactly when its two items occur in order in the input
and their hashes are similar. -/
lemma mem_find_similar_pairs (l : List (FilePath' × Fingerprint)) (t : Int)
    (a b : FilePath') :
    (a, b) ∈ find_similar_pairs l t ↔
      ∃ ha hb, ([(a, ha), (b, hb)] : List (FilePath' × Fingerprint)).Sublist l ∧
        are_similar ha hb t = true := by
  induction l with
  | nil =>
    simp [find_similar_pairs]
  | cons x rest ih =>
    simp only [find_similar_pairs, List.mem_append, List.mem_filterMap, ih]
    constructor
    · rintro (⟨y, hy, hif⟩ | ⟨ha, hb, hsub, hsim⟩)
      · by_cases hs : are_similar x.2 y.2 t
        · rw [if_pos hs] at hif
          obtain ⟨he1, he2⟩ := Prod.mk.injEq .. ▸ Option.some.inj hif
          refine ⟨x.2, y.2, ?_, hs⟩
          have hx : x = (a, x.2) := by rw [← he1]
          rw [← he2]
          rw [hx]
          exact List.Sublist.cons₂ _ (List.singleton_sublist.mpr (by
            have : y = (y.1, y.2) := rfl
            rw [← this]; exact hy))
        · rw [if_neg hs] at hif
          cases hif
      · exact ⟨ha, hb, hsub.cons x, hsim⟩
    · rintro ⟨ha, hb, hsub, hsim⟩
      cases hsub with
      | cons _ h' => exact Or.inr ⟨ha, hb, h', hsim⟩
      | cons₂ _ h' =>
        left
        refine ⟨(b, hb), List.singleton_sublist.mp h', ?_⟩
        rw [if_pos hsim]

/-- Both endpoints of an emitted pair are input paths. -/
lemma find_similar_pairs_endpoints (l : List (FilePath' × Fingerprint)) (t : Int)
    (a b : FilePath') (h : (a, b) ∈ find_similar_pairs l t) :
    a ∈ l.map Prod.fst ∧ b ∈ l.map Prod.fst := by
  obtain ⟨ha, hb, hsub, _⟩ := (mem_find_similar_pairs l t a b).mp h
  have := hsub.map Prod.fst
  simp only [List.map_cons, List.map_nil] at this
  constructor
  · exact this.subset (by simp)
  · exact this.subset (by simp)

/-- With distinct paths each path has a unique fingerprint binding. -/
lemma fingerprint_unique (l : List (FilePath' × Fingerprint))
    (h : (l.map Prod.fst).Nodup) (a : FilePath') (x y : Fingerprint)
    (hx : (a, x) ∈ l) (hy : (a, y) ∈ l) : x = y := by
  induction l with
  | nil => cases hx
  | cons kv rest ih =>
    simp only [List.map_cons, List.nodup_cons] at h
    rcases List.mem_cons.mp hx with rfl | hx'
    · rcases List.mem_cons.mp hy with he | hy'
      · exact (Prod.mk.injEq .. ▸ he.symm).2
      · exact absurd (List.mem_map_of_mem Prod.fst hy') h.1
    · rcases List.mem_cons.mp hy with rfl | hy'
      · exact absurd (List.mem_map_of_mem Prod.fst hx') h.1
      · exact ih h.2 hx' hy'

/-- Two distinct list members occur in one of the two orders. -/
lemma sublist_pair_of_mem {α : Type} {x y : α} :
    ∀ {L : List α}, x ∈ L → y ∈ L → x ≠ y →
    ([x, y] : List α).Sublist L ∨ ([y, x] : List α).Sublist L := by
  intro L
  induction L with
  | nil => intro hx; cases hx
  | cons z rest ih =>
    intro hx hy hne
    rcases List.mem_cons.mp hx with rfl | hx'
    · have hy' : y ∈ rest := by
        rcases List.mem_cons.mp hy with he | hy' 
        · exact absurd he.symm hne
        · exact hy'
      exact Or.inl (List.Sublist.cons₂ _ (List.singleton_sublist.mpr hy'))
    · rcases List.mem_cons.mp hy with rfl | hy'
      · exact Or.inr (List.Sublist.cons₂ _ (List.singleton_sublist.mpr hx'))
      · rcases ih hx' hy' hne with h | h
        · exact Or.inl (h.cons z)
        · exact Or.inr (h.cons z)

/-- In a duplicate-free list two elements cannot occur in both orders. -/
lemma sublist_pair_asymm {α : Type} {a b : α} :
    ∀ {L : List α}, L.Nodup → a ≠ b →
    ([a, b] : List α).Sublist L → ¬([b, a] : List α).Sublist L := by
  intro L
  induction L with
  | nil => intro _ _ h; cases h
  | cons z rest ih =>
    intro hnd hne h1 h2
    rw [List.nodup_cons] at hnd
    cases h1 with
    | cons _ h1' =>
      cases h2 with
      | cons _ h2' => exact ih hnd.2 hne h1' h2'
      | cons₂ _ h2' => exact hnd.1 (h1'.subset (by simp))
    | cons₂ _ h1' =>
      cases h2 with
      | cons _ h2' => exact hnd.1 (h2'.subset (by simp))
      | cons₂ _ h2' => exact hne rfl

/-- An unordered pair is reported (in one of its orientations) exactly when
both items occur, are distinct, and their hashes are similar. -/
lemma unordered_mem_find_similar_pairs (l : List (FilePath' × Fingerprint)) (t : Int)
    (h : (l.map Prod.fst).Nodup) (a b : FilePath') :
    ((a, b) ∈ find_similar_pairs l t ∨ (b, a) ∈ find_similar_pairs l t) ↔
      ∃ ha hb, (a, ha) ∈ l ∧ (b, hb) ∈ l ∧ a ≠ b ∧ are_similar ha hb t = true := by
  constructor
  · rintro (hm | hm)
    · obtain ⟨ha, hb, hsub, hsim⟩ := (mem_find_similar_pairs l t a b).mp hm
      have hne : a ≠ b := by
        have hfst := hsub.map Prod.fst
        simp only [List.map_cons, List.map_nil] at hfst
        have hnd := List.Nodup.sublist hfst h
        simp only [List.nodup_cons, List.mem_singleton] at hnd
        exact hnd.1
      exact ⟨ha, hb, hsub.subset (by simp), hsub.subset (by simp), hne, hsim⟩
    · obtain ⟨hb, ha, hsub, hsim⟩ := (mem_find_similar_pairs l t b a).mp hm
      have hne : b ≠ a := by
        have hfst := hsub.map Prod.fst
        simp only [List.map_cons, List.map_nil] at hfst
        have hnd := List.Nodup.sublist hfst h
        simp only [List.nodup_cons, List.mem_singleton] at hnd
        exact hnd.1
      refine ⟨ha, hb, hsub.subset (by simp), hsub.subset (by simp), hne.symm, ?_⟩
      rw [are_similar_comm]
      exact hsim
  · rintro ⟨ha, hb, hA, hB, hne, hsim⟩
    have hpair : ((a, ha) : FilePath' × Fingerprint) ≠ (b, hb) := fun he =>
      hne (congrArg Prod.fst he)
    rcases sublist_pair_of_mem hA hB hpair with hs | hs
    · exact Or.inl ((mem_find_similar_pairs l t a b).mpr ⟨ha, hb, hs, hsim⟩)
    · refine Or.inr ((mem_find_similar_pairs l t b a).mpr ⟨hb, ha, hs, ?_⟩)
      rw [are_similar_comm]
      exact hsim

/-- A conditional filterMap is a sublist of the corresponding map. -/
lemma filterMap_if_sublist_map {α β : Type} (c : α → Bool) (g : α → β) (l : List α) :
    (l.filterMap fun y => if c y = true then some (g y) else none).Sublist (l.map g) := by
  induction l with
  | nil => simp
  | cons y t ih =>
    rw [List.filterMap_cons, List.map_cons]
    by_cases hc : c y = true
    · rw [if_pos hc]
      exact ih.cons₂ (g y)
    · rw [if_neg hc]
      exact ih.cons (g y)

/-- With distinct paths the emitted pair list has no duplicates. -/
lemma find_similar_pairs_nodup (l : List (FilePath' × Fingerprint)) (t : Int)
    (h : (l.map Prod.fst).Nodup) : (find_similar_pairs l t).Nodup := by
  induction l with
  | nil => simp [find_similar_pairs]
  | cons x rest ih =>
    simp only [List.map_cons, List.nodup_cons] at h
    simp only [find_similar_pairs]
    rw [List.nodup_append]
    refine ⟨?_, ih h.2, ?_⟩
    · apply List.Nodup.of_map Prod.snd
      rw [List.map_filterMap]
      have hcongr : (rest.filterMap fun y =>
          Option.map Prod.snd (if are_similar x.2 y.2 t then some (x.1, y.1) else none)) =
          rest.filterMap fun y =>
            if are_similar x.2 y.2 t = true then some y.1 else none := by
        apply List.filterMap_congr
        intro y _
        by_cases hs : are_similar x.2 y.2 t <;> simp [hs]
      rw [hcongr]
      exact List.Nodup.sublist (filterMap_if_sublist_map _ Prod.fst rest) h.2
    · intro e he1 he2
      obtain ⟨y, _, hif⟩ := List.mem_filterMap.mp he1
      by_cases hs : are_similar x.2 y.2 t
      · rw [if_pos hs] at hif
        obtain rfl := Option.some.inj hif
        exact h.1 (find_similar_pairs_endpoints rest t x.1 y.1 he2).1
      · rw [if_neg hs] at hif
        cases hif

/-- Claim C5: for items with pairwise-distinct paths and any integer
threshold, `find_similar_pairs` returns exactly the unordered pairs of
distinct items within threshold distance — each reported once, never (a, a),
never both orientations, and (as a set of unordered pairs) independently of
the input order. -/
theorem c5_find_similar_pairs_exact (l : List (FilePath' × Fingerprint)) (t : Int)
    (h : (l.map Prod.fst).Nodup) :
    (∀ a ha b hb, (a, ha) ∈ l → (b, hb) ∈ l → a ≠ b →
      (((a, b) ∈ find_similar_pairs l t ∨ (b, a) ∈ find_similar_pairs l t) ↔
        are_similar ha hb t = true)) ∧
    (∀ a, (a, a) ∉ find_similar_pairs l t) ∧
    (∀ a b, (a, b) ∈ find_similar_pairs l t → (b, a) ∉ find_similar_pairs l t) ∧
    (find_similar_pairs l t).Nodup ∧
    (∀ l', l.Perm l' → ∀ a b,
      ((a, b) ∈ find_similar_pairs l' t ∨ (b, a) ∈ find_similar_pairs l' t) ↔
      ((a, b) ∈ find_similar_pairs l t ∨ (b, a) ∈ find_similar_pairs l t)) := by
  have hnever : ∀ a, (a, a) ∉ find_similar_pairs l t := by
    intro a hm
    obtain ⟨ha, hb, hsub, _⟩ := (mem_find_similar_pairs l t a a).mp hm
    have hfst := hsub.map Prod.fst
    simp only [List.map_cons, List.map_nil] at hfst
    have hnd := List.Nodup.sublist hfst h
    simp at hnd
  refine ⟨?_, hnever, ?_, find_similar_pairs_nodup l t h, ?_⟩
  · intro a ha b hb hA hB hne
    rw [unordered_mem_find_similar_pairs l t h a b]
    constructor
    · rintro ⟨ha', hb', hA', hB', _, hsim⟩
      rw [fingerprint_unique l h a ha ha' hA hA', fingerprint_unique l h b hb hb' hB hB']
      exact hsim
    · intro hsim
      exact ⟨ha, hb, hA, hB, hne, hsim⟩
  · intro a b hab hba
    have hne : a ≠ b := by
      rintro rfl
      exact hnever a hab
    obtain ⟨ha, hb, hsub1, _⟩ := (mem_find_similar_pairs l t a b).mp hab
    obtain ⟨hb', ha', hsub2, _⟩ := (mem_find_similar_pairs l t b a).mp hba
    have he1 : ha' = ha := fingerprint_unique l h a ha' ha
      (hsub2.subset (by simp)) (hsub1.subset (by simp))
    have he2 : hb' = hb := fingerprint_unique l h b hb' hb
      (hsub2.subset (by simp)) (hsub1.subset (by simp))
    rw [he1, he2] at hsub2
    have hlnd : l.Nodup := List.Nodup.of_map Prod.fst h
    have hpairne : ((a, ha) : FilePath' × Fingerprint) ≠ (b, hb) := fun he =>
      hne (congrArg Prod.fst he)
    exact sublist_pair_asymm hlnd hpairne hsub1 hsub2
  · intro l' hperm a b
    have h' : (l'.map Prod.fst).Nodup := ((hperm.map Prod.fst).nodup_iff).mp h
    rw [unordered_mem_find_similar_pairs l t h a b,
      unordered_mem_find_similar_pairs l' t h' a b]
    constructor
    · rintro ⟨ha, hb, hA, hB, hne, hsim⟩
      exact ⟨ha, hb, hperm.mem_iff.mpr hA, hperm.mem_iff.mpr hB, hne, hsim⟩
    · rintro ⟨ha, hb, hA, hB, hne, hsim⟩
      exact ⟨ha, hb, hperm.mem_iff.mp hA, hperm.mem_iff.mp hB, hne, hsim⟩

/-- Witness for C5 at three concrete items. -/
theorem c5_find_similar_pairs_exact_witness :
    ((([("p", [true]), ("q", [false]), ("r", [true])] :
      List (FilePath' × Fingerprint)).map Prod.fst).Nodup) ∧
    ((("p", "r") ∈ find_similar_pairs [("p", [true]), ("q", [false]), ("r", [true])] 0 ∨
      ("r", "p") ∈ find_similar_pairs [("p", [true]), ("q", [false]), ("r", [true])] 0) ↔
      are_similar [true] [true] 0 = true) ∧
    ("q", "q") ∉ find_similar_pairs [("p", [true]), ("q", [false]), ("r", [true])] 0 :=
  ⟨by decide,
   (c5_find_similar_pairs_exact _ 0 (by decide)).1 "p" [true] "r" [true]
     (by decide) (by decide) (by decide),
   (c5_find_similar_pairs_exact _ 0 (by decide)).2.1 "q"⟩

/-- Endpoints of internal pairs lie inside the group. -/
lemma internalPairs_mem (large_group : List FilePath')
    (similar_pairs : List (FilePath' × FilePath')) (pr : FilePath' × FilePath')
    (h : pr ∈ internalPairs large_group similar_pairs) :
    pr.1 ∈ large_group ∧ pr.2 ∈ large_group := by
  have := List.mem_filter.mp h
  simpa using this.2

/-- The connected-set scan only collects pair endpoints. -/
lemma foldl_connStep_subset (seed : FilePath') (used : List FilePath')
    (Q : FilePath' → Prop) (ip : List (FilePath' × FilePath')) :
    ∀ acc : List FilePath', (∀ x ∈ acc, Q x) → (∀ pr ∈ ip, Q pr.1 ∧ Q pr.2) →
    ∀ x ∈ ip.foldl (connStep seed used) acc, Q x := by
  induction ip with
  | nil => exact fun acc hacc _ => hacc
  | cons pr ip ih =>
    intro acc hacc hip
    rw [List.foldl_cons]
    refine ih _ ?_ (fun pr' h' => hip pr' (List.mem_cons_of_mem pr h'))
    intro x hx
    unfold connStep at hx
    split_ifs at hx with h1 h2 h3
    · exact hacc x hx
    · rcases List.mem_append.mp hx with hx' | hx'
      · exact hacc x hx'
      · rw [List.mem_singleton] at hx'
        subst hx'
        exact (hip pr (List.mem_cons_self pr ip)).2
    · exact hacc x hx
    · rcases List.mem_append.mp hx with hx' | hx'
      · exact hacc x hx'
      · rw [List.mem_singleton] at hx'
        subst hx'
        exact (hip pr (List.mem_cons_self pr ip)).1
    · exact hacc x hx

/-- The cluster-growth fold only collects its inputs. -/
lemma foldl_growStep_subset (Q : FilePath' → Prop) (l : List FilePath') :
    ∀ st : List FilePath' × List FilePath', (∀ x ∈ st.1, Q x) → (∀ x ∈ l, Q x) →
    ∀ x ∈ (l.foldl growStep st).1, Q x := by
  induction l with
  | nil => exact fun st hst _ => hst
  | cons y ys ih =>
    intro st hst hl
    rw [List.foldl_cons]
    refine ih _ ?_ (fun x hx => hl x (List.mem_cons_of_mem y hx))
    intro x hx
    unfold growStep at hx
    split_ifs at hx with h
    · exact hst x hx
    · rcases List.mem_append.mp hx with hx' | hx'
      · exact hst x hx'
      · rw [List.mem_singleton] at hx'
        subst hx'
        exact hl _ (List.mem_cons_self _ _)

/-- Clusters produced by the seed pass contain only group members. -/
lemma foldl_seedStep_clusters_subset (Q : FilePath' → Prop)
    (ip : List (FilePath' × FilePath')) (hip : ∀ pr ∈ ip, Q pr.1 ∧ Q pr.2) :
    ∀ (l : List FilePath'), (∀ s ∈ l, Q s) →
    ∀ st : SplitState, (∀ c ∈ st.clusters, ∀ p ∈ c, Q p) →
    ∀ c ∈ (l.foldl (seedStep ip) st).clusters, ∀ p ∈ c, Q p := by
  intro l
  induction l with
  | nil => exact fun _ st hst => hst
  | cons s ys ih =>
    intro hl st hst
    rw [List.foldl_cons]
    refine ih (fun x hx => hl x (List.mem_cons_of_mem s hx)) _ ?_
    intro c hc p hp
    unfold seedStep at hc
    split_ifs at hc with h
    · exact hst c hc p hp
    · simp only at hc
      split_ifs at hc with hlen
      · rcases List.mem_append.mp hc with hc' | hc'
        · exact hst c hc' p hp
        · rw [List.mem_singleton] at hc'
          subst hc'
          refine foldl_growStep_subset Q _ _ ?_ ?_ p hp
          · intro x hx
            rw [List.mem_singleton] at hx
            subst hx
            exact hl _ (List.mem_cons_self _ _)
          · exact foldl_connStep_subset s _ Q ip [] (by simp) hip
      · exact hst c hc p hp

/-- The result of `split_large_group`, with the always-empty remaining list
reduced away: either the whole-group fallback or the seed-pass clusters. -/
lemma split_large_group_eq (g : List FilePath') (sp : List (FilePath' × FilePath')) :
    split_large_group g sp =
      (if (seedPass (internalPairs g sp)
            (sortDesc (connectionCount (internalPairs g sp)) g)).clusters.isEmpty = true
       then [g]
       else (seedPass (internalPairs g sp)
         (sortDesc (connectionCount (internalPairs g sp)) g)).clusters) := by
  unfold split_large_group
  rw [splitRemaining_eq_nil]
  rfl

/-- Every member of every returned sub-cluster comes from the group. -/
lemma split_large_group_subset (g : List FilePath') (sp : List (FilePath' × FilePath')) :
    ∀ c ∈ split_large_group g sp, ∀ p ∈ c, p ∈ g := by
  intro c hc p hp
  rw [split_large_group_eq] at hc
  split_ifs at hc with hemp
  · rw [List.mem_singleton] at hc
    subst hc
    exact hp
  · refine foldl_seedStep_clusters_subset (fun q => q ∈ g)
      (internalPairs g sp) ?_ _ ?_ ⟨[], []⟩ (by simp) c hc p hp
    · exact fun pr hpr => internalPairs_mem g sp pr hpr
    · intro s hs
      exact (sortDesc_perm _ _).mem_iff.mp hs

/-- `split_large_group` never returns an empty list of sub-clusters. -/
lemma split_large_group_ne_nil (g : List FilePath') (sp : List (FilePath' × FilePath')) :
    split_large_group g sp ≠ [] := by
  rw [split_large_group_eq]
  split_ifs with h
  · simp
  · exact fun he => h (by simp [he])

/-- Claim C6: in `group_similar_images` every deduplicated group of at most
20 members appears in the final output unchanged, and for an oversized group
with at least one internal pair `split_large_group` returns at least one
sub-cluster whose members are all drawn from the group (no member invented). -/
theorem c6_cap_and_split_behaviour :
    (∀ pairs g, g ∈ resultGroups pairs → g.length ≤ 20 →
      g ∈ group_similar_images pairs) ∧
    (∀ g sp, 20 < g.length → internalPairs g sp ≠ [] →
      1 ≤ (split_large_group g sp).length ∧
      ∀ c ∈ split_large_group g sp, ∀ p ∈ c, p ∈ g) := by
  constructor
  · intro pairs g hg hlen
    unfold group_similar_images
    by_cases hp : pairs.isEmpty = true
    · have hnil : pairs = [] := by simpa using hp
      subst hnil
      have : resultGroups [] = [] := rfl
      rw [this] at hg
      cases hg
    · rw [if_neg hp]
      refine List.mem_flatMap.mpr ⟨g, hg, ?_⟩
      rw [if_neg (by omega)]
      exact List.mem_singleton.mpr rfl
  · intro g sp _ _
    exact ⟨List.length_pos.mpr (split_large_group_ne_nil g sp),
      split_large_group_subset g sp⟩

/-- Witness for C6: a two-member group passes through unchanged, and the
oversized 21-member group with one internal pair splits into at least one
sub-cluster made of its own members. -/
theorem c6_cap_and_split_behaviour_witness :
    ["x", "y"] ∈ group_similar_images [("x", "y")] ∧
    1 ≤ (split_large_group
      ["a01", "a02", "a03", "a04", "a05", "a06", "a07", "a08", "a09", "a10",
       "a11", "a12", "a13", "a14", "a15", "a16", "a17", "a18", "a19", "a20", "a21"]
      [("a01", "a02")]).length ∧
    "a01" ∈ (["a01", "a02", "a03", "a04", "a05", "a06", "a07", "a08", "a09", "a10",
       "a11", "a12", "a13", "a14", "a15", "a16", "a17", "a18", "a19", "a20", "a21"] :
       List FilePath') :=
  ⟨c6_cap_and_split_behaviour.1 [("x", "y")] ["x", "y"] (by decide) (by decide),
   (c6_cap_and_split_behaviour.2
     ["a01", "a02", "a03", "a04", "a05", "a06", "a07", "a08", "a09", "a10",
      "a11", "a12", "a13", "a14", "a15", "a16", "a17", "a18", "a19", "a20", "a21"]
     [("a01", "a02")] (by decide) (by decide)).1,
   (c6_cap_and_split_behaviour.2
     ["a01", "a02", "a03", "a04", "a05", "a06", "a07", "a08", "a09", "a10",
      "a11", "a12", "a13", "a14", "a15", "a16", "a17", "a18", "a19", "a20", "a21"]
     [("a01", "a02")] (by decide) (by decide)).2 ["a01", "a02"] (by decide) "a01"
     (by decide)⟩

/-- `pairAdj` is symmetric. -/
lemma pairAdj_symm (P : List (FilePath' × FilePath')) (a b : FilePath')
    (h : pairAdj P a b) : pairAdj P b a := h.symm

/-- `pairConn` is symmetric. -/
lemma pairConn_symm (P : List (FilePath' × FilePath')) {p q : FilePath'}
    (h : pairConn P p q) : pairConn P q p := by
  induction h with
  | refl => exact Relation.ReflTransGen.refl
  | tail _ hstep ih => exact Relation.ReflTransGen.head (pairAdj_symm P _ _ hstep) ih

/-- Connectivity is monotone in the pair list. -/
lemma pairConn_mono {P P' : List (FilePath' × FilePath')} (hsub : ∀ e ∈ P, e ∈ P')
    {p q : FilePath'} (h : pairConn P p q) : pairConn P' p q :=
  Relation.ReflTransGen.mono (fun _ _ hab => hab.imp (hsub _) (hsub _)) h

/-- Occurring in a pair list extended by one pair. -/
lemma mentionedIn_append (P : List (FilePath' × FilePath')) (a b p : FilePath') :
    mentionedIn (P ++ [(a, b)]) p ↔ mentionedIn P p ∨ p = a ∨ p = b := by
  simp only [mentionedIn, pairAdj, List.mem_append, List.mem_singleton, Prod.mk.injEq]
  constructor
  · rintro ⟨q, (h | ⟨rfl, rfl⟩) | (h | ⟨rfl, rfl⟩)⟩
    · exact Or.inl ⟨q, Or.inl h⟩
    · exact Or.inr (Or.inl rfl)
    · exact Or.inl ⟨q, Or.inr h⟩
    · exact Or.inr (Or.inr rfl)
  · rintro (⟨q, h | h⟩ | rfl | rfl)
    · exact ⟨q, Or.inl (Or.inl h)⟩
    · exact ⟨q, Or.inr (Or.inl h)⟩
    · exact ⟨b, Or.inl (Or.inr ⟨rfl, rfl⟩)⟩
    · exact ⟨a, Or.inr (Or.inr ⟨rfl, rfl⟩)⟩

/-- Adjacency in a pair list extended by one pair. -/
lemma pairAdj_append_single (P : List (FilePath' × FilePath')) (a b p q : FilePath') :
    pairAdj (P ++ [(a, b)]) p q ↔ pairAdj P p q ∨ (p = a ∧ q = b) ∨ (p = b ∧ q = a) := by
  simp only [pairAdj, List.mem_append, List.mem_singleton, Prod.mk.injEq]
  tauto

/-- A chain into an identifier occurring in no pair is trivial. -/
lemma conn_eq_of_not_mentioned (P : List (FilePath' × FilePath')) (p a : FilePath')
    (ha : ¬ mentionedIn P a) (h : pairConn P p a) : p = a := by
  rcases Relation.ReflTransGen.cases_tail h with h' | ⟨c, _, hc⟩
  · exact h'.symm
  · exact absurd ⟨c, pairAdj_symm P c a hc⟩ ha

/-- Both endpoints of a nontrivial chain occur in some pair. -/
lemma conn_mentioned (P : List (FilePath' × FilePath')) (p q : FilePath')
    (h : pairConn P p q) (hne : p ≠ q) : mentionedIn P p ∧ mentionedIn P q := by
  constructor
  · by_contra hp
    exact hne (conn_eq_of_not_mentioned P q p hp (pairConn_symm P h)).symm
  · by_contra hq
    exact hne (conn_eq_of_not_mentioned P p q hq h)

/-- Connectivity over a pair list extended by one pair: a chain either avoids
the new edge, or crosses it in one of the two directions. -/
lemma pairConn_append_single (P : List (FilePath' × FilePath')) (a b p q : FilePath') :
    pairConn (P ++ [(a, b)]) p q ↔
      pairConn P p q ∨ (pairConn P p a ∧ pairConn P b q) ∨
        (pairConn P p b ∧ pairConn P a q) := by
  constructor
  · intro h
    induction h using Relation.ReflTransGen.head_induction_on with
    | refl => exact Or.inl Relation.ReflTransGen.refl
    | head hstep _ ih =>
      rw [pairAdj_append_single] at hstep
      rcases hstep with hs | ⟨rfl, rfl⟩ | ⟨rfl, rfl⟩
      · rcases ih with h1 | ⟨h1, h2⟩ | ⟨h1, h2⟩
        · exact Or.inl (Relation.ReflTransGen.head hs h1)
        · exact Or.inr (Or.inl ⟨Relation.ReflTransGen.head hs h1, h2⟩)
        · exact Or.inr (Or.inr ⟨Relation.ReflTransGen.head hs h1, h2⟩)
      · rcases ih with h1 | ⟨h1, h2⟩ | ⟨h1, h2⟩
        · exact Or.inr (Or.inl ⟨Relation.ReflTransGen.refl, h1⟩)
        · exact Or.inl (Relation.ReflTransGen.trans (pairConn_symm P h1) h2)
        · exact Or.inl h2
      · rcases ih with h1 | ⟨h1, h2⟩ | ⟨h1, h2⟩
        · exact Or.inr (Or.inr ⟨Relation.ReflTransGen.refl, h1⟩)
        · exact Or.inl h2
        · exact Or.inl (Relation.ReflTransGen.trans (pairConn_symm P h1) h2)
  · have hmono : ∀ x y : FilePath', pairConn P x y → pairConn (P ++ [(a, b)]) x y :=
      fun x y => pairConn_mono (fun e he => List.mem_append_left _ he)
    have hedge : pairConn (P ++ [(a, b)]) a b :=
      Relation.ReflTransGen.single
        (Or.inl (List.mem_append_right _ (List.mem_singleton_self _)))
    rintro (h | ⟨h1, h2⟩ | ⟨h1, h2⟩)
    · exact hmono _ _ h
    · exact Relation.ReflTransGen.trans
        (Relation.ReflTransGen.trans (hmono _ _ h1) hedge) (hmono _ _ h2)
    · exact Relation.ReflTransGen.trans
        (Relation.ReflTransGen.trans (hmono _ _ h1)
          (pairConn_symm (P ++ [(a, b)]) hedge)) (hmono _ _ h2)

/-- Connectivity only depends on the set of pairs. -/
lemma pairConn_perm {P P' : List (FilePath' × FilePath')} (h : P.Perm P')
    (p q : FilePath') : pairConn P p q ↔ pairConn P' p q :=
  ⟨pairConn_mono fun _ he => h.mem_iff.mp he,
   pairConn_mono fun _ he => h.mem_iff.mpr he⟩

/-- Occurrence only depends on the set of pairs. -/
lemma mentionedIn_perm {P P' : List (FilePath' × FilePath')} (h : P.Perm P')
    (p : FilePath') : mentionedIn P p ↔ mentionedIn P' p := by
  simp only [mentionedIn, pairAdj]
  constructor
  · rintro ⟨q, hq | hq⟩
    · exact ⟨q, Or.inl (h.mem_iff.mp hq)⟩
    · exact ⟨q, Or.inr (h.mem_iff.mp hq)⟩
  · rintro ⟨q, hq | hq⟩
    · exact ⟨q, Or.inl (h.mem_iff.mpr hq)⟩
    · exact ⟨q, Or.inr (h.mem_iff.mpr hq)⟩

/-- Membership in the deduplication helper. -/
lemma mem_dedupFirstAux (seen l : List FilePath') (y : FilePath') :
    y ∈ dedupFirstAux seen l ↔ y ∈ l ∧ y ∉ seen := by
  induction l generalizing seen with
  | nil => simp [dedupFirstAux]
  | cons x xs ih =>
    by_cases hx : x ∈ seen
    · simp only [dedupFirstAux, if_pos hx]
      rw [ih]
      constructor
      · rintro ⟨h1, h2⟩; exact ⟨List.mem_cons_of_mem _ h1, h2⟩
      · rintro ⟨h1, h2⟩
        rcases List.mem_cons.mp h1 with rfl | h1
        · exact absurd hx h2
        · exact ⟨h1, h2⟩
    · simp only [dedupFirstAux, if_neg hx]
      constructor
      · intro h
        rcases List.mem_cons.mp h with rfl | h
        · exact ⟨List.mem_cons_self _ _, hx⟩
        · rw [ih] at h
          refine ⟨List.mem_cons_of_mem _ h.1, fun hs => h.2 (List.mem_cons_of_mem _ hs)⟩
      · rintro ⟨h1, h2⟩
        rcases List.mem_cons.mp h1 with rfl | h1
        · exact List.mem_cons_self _ _
        · by_cases hxy : y = x
          · subst hxy; exact List.mem_cons_self _ _
          · refine List.mem_cons_of_mem _ ?_
            rw [ih]
            refine ⟨h1, fun hs => ?_⟩
            rcases List.mem_cons.mp hs with h | h
            · exact hxy h
            · exact h2 h

/-- The deduplication helper never repeats an element. -/
lemma dedupFirstAux_nodup (seen l : List FilePath') : (dedupFirstAux seen l).Nodup := by
  induction l generalizing seen with
  | nil => simp [dedupFirstAux]
  | cons x xs ih =>
    by_cases hx : x ∈ seen
    · simp only [dedupFirstAux, if_pos hx]; exact ih seen
    · simp only [dedupFirstAux, if_neg hx]
      refine List.nodup_cons.mpr ⟨fun hmem => ?_, ih _⟩
      exact ((mem_dedupFirstAux _ _ _).mp hmem).2 (List.mem_cons_self _ _)

/-- `dedupFirst` keeps exactly the members of the list. -/
lemma mem_dedupFirst (l : List FilePath') (y : FilePath') : y ∈ dedupFirst l ↔ y ∈ l := by
  rw [dedupFirst, mem_dedupFirstAux]; simp

/-- `dedupFirst` never repeats an element. -/
lemma dedupFirst_nodup (l : List FilePath') : (dedupFirst l).Nodup :=
  dedupFirstAux_nodup [] l

/-- A list with two distinct members has more than one element. -/
lemma one_lt_length_of_two_mem {l : List FilePath'} {p q : FilePath'}
    (hp : p ∈ l) (hq : q ∈ l) (hne : p ≠ q) : 1 < l.length := by
  cases l with
  | nil => cases hp
  | cons x xs =>
    cases xs with
    | nil =>
      rcases List.mem_singleton.mp hp with rfl
      rcases List.mem_singleton.mp hq with rfl
      exact absurd rfl hne
    | cons y ys => simp only [List.length_cons]; omega

/-- A duplicate-free list of at least two elements has, next to any member,
a second distinct member. -/
lemma exists_other_mem {l : List FilePath'} (hn : l.Nodup) (hl : 2 ≤ l.length)
    {p : FilePath'} (hp : p ∈ l) : ∃ q ∈ l, q ≠ p := by
  cases l with
  | nil => cases hp
  | cons x xs =>
    cases xs with
    | nil => simp at hl
    | cons y ys =>
      have hxy : x ≠ y := by
        intro h
        subst h
        exact (List.nodup_cons.mp hn).1 (List.mem_cons_self _ _)
      by_cases hpx : p = x
      · refine ⟨y, List.mem_cons_of_mem _ (List.mem_cons_self _ _), ?_⟩
        rw [hpx]
        exact hxy.symm
      · exact ⟨x, List.mem_cons_self _ _, fun h => hpx h.symm⟩

/-- Unfolding `alookup` on a cons cell. -/
lemma alookup_cons {α β : Type} [DecidableEq α] (k : α) (kv : α × β) (l : List (α × β)) :
    alookup k (kv :: l) = if kv.1 = k then some kv.2 else alookup k l := rfl

/-- `alookup` over an appended list tries the first part first. -/
lemma alookup_append {α β : Type} [DecidableEq α] (k : α) (l1 l2 : List (α × β)) :
    alookup k (l1 ++ l2) =
      match alookup k l1 with
      | some v => some v
      | none => alookup k l2 := by
  induction l1 with
  | nil => rfl
  | cons kv rest ih =>
    rw [List.cons_append, alookup_cons, alookup_cons]
    by_cases h : kv.1 = k
    · rw [if_pos h, if_pos h]
    · rw [if_neg h, if_neg h, ih]

/-- `alookup` on a constant-value association built by `map`. -/
lemma alookup_map_const {α β : Type} [DecidableEq α] (k : α) (c : β) (l : List α) :
    alookup k (l.map fun x => (x, c)) = if k ∈ l then some c else none := by
  induction l with
  | nil => rfl
  | cons x xs ih =>
    rw [List.map_cons, alookup_cons]
    by_cases h : x = k
    · subst h
      rw [if_pos rfl, if_pos (List.mem_cons_self _ _)]
    · rw [if_neg h, ih]
      by_cases hk : k ∈ xs
      · rw [if_pos hk, if_pos (List.mem_cons_of_mem _ hk)]
      · rw [if_neg hk, if_neg]
        intro hc
        rcases List.mem_cons.mp hc with rfl | hc
        · exact h rfl
        · exact hk hc

/-- With duplicate-free identities, membership determines the lookup. -/
lemma alookup_of_mem_nodup {gs : List (Nat × List FilePath')}
    (hn : (gs.map Prod.fst).Nodup) {i : Nat} {m : List FilePath'}
    (h : (i, m) ∈ gs) : alookup i gs = some m := by
  induction gs with
  | nil => cases h
  | cons g rest ih =>
    rw [List.map_cons, List.nodup_cons] at hn
    rw [alookup_cons]
    rcases List.mem_cons.mp h with h' | h'
    · rw [← h']
      rw [if_pos rfl]
    · have hne : g.1 ≠ i := by
        intro he
        exact hn.1 (he ▸ List.mem_map_of_mem Prod.fst h')
      rw [if_neg hne]
      exact ih hn.2 h'

/-- With duplicate-free identities, an identity determines the members. -/
lemma members_eq_of_nodup {gs : List (Nat × List FilePath')}
    (hn : (gs.map Prod.fst).Nodup) {i : Nat} {m m' : List FilePath'}
    (h1 : (i, m) ∈ gs) (h2 : (i, m') ∈ gs) : m = m' := by
  have e1 := alookup_of_mem_nodup hn h1
  have e2 := alookup_of_mem_nodup hn h2
  rw [e1] at e2
  exact Option.some.inj e2

/-- Membership in an `updGroup` image. -/
lemma mem_updGroup {gs : List (Nat × List FilePath')} {i : Nat} {extra : List FilePath'}
    {g : Nat × List FilePath'} :
    g ∈ updGroup gs i extra ↔
      (∃ m, (i, m) ∈ gs ∧ g = (i, m ++ extra)) ∨ (g ∈ gs ∧ g.1 ≠ i) := by
  unfold updGroup
  rw [List.mem_map]
  constructor
  · rintro ⟨g0, hg0, rfl⟩
    by_cases h : g0.1 = i
    · left
      refine ⟨g0.2, ?_, ?_⟩
      · rw [← h]; exact hg0
      · rw [if_pos h, h]
    · right
      rw [if_neg h]
      exact ⟨hg0, h⟩
  · rintro (⟨m, hm, rfl⟩ | ⟨hg, hne⟩)
    · exact ⟨(i, m), hm, by rw [if_pos rfl]⟩
    · exact ⟨g, hg, by rw [if_neg hne]⟩

/-- `updGroup` preserves the group identities. -/
lemma updGroup_map_fst (gs : List (Nat × List FilePath')) (i : Nat)
    (extra : List FilePath') : (updGroup gs i extra).map Prod.fst = gs.map Prod.fst := by
  unfold updGroup
  rw [List.map_map]
  apply List.map_congr_left
  intro g _
  by_cases h : g.1 = i
  · rw [Function.comp_apply, if_pos h]
  · rw [Function.comp_apply, if_neg h]

/-- Membership in the filtered group list of the merge branch. -/
lemma mem_filter_ne {gs : List (Nat × List FilePath')} {j : Nat}
    {g : Nat × List FilePath'} :
    g ∈ gs.filter (fun g => g.1 != j) ↔ g ∈ gs ∧ g.1 ≠ j := by
  rw [List.mem_filter, bne_iff_ne]

/-- An unbound path does not occur in the processed pairs. -/
lemma GBInv.not_mentioned_of_none {P : List (FilePath' × FilePath')} {st : GBState}
    (h : GBInv P st) {p : FilePath'} (hp : alookup p st.p2g = none) :
    ¬ mentionedIn P p := by
  intro hm
  have hs := (h.lookMent p).mpr hm
  rw [hp] at hs
  cases hs

/-- A bound path occurs in the processed pairs. -/
lemma GBInv.mentioned_of_some {P : List (FilePath' × FilePath')} {st : GBState}
    (h : GBInv P st) {p : FilePath'} {i : Nat} (hp : alookup p st.p2g = some i) :
    mentionedIn P p :=
  (h.lookMent p).mp (by rw [hp]; rfl)

/-- An unbound path belongs to no group. -/
lemma GBInv.not_in_groups_of_none {P : List (FilePath' × FilePath')} {st : GBState}
    (h : GBInv P st) {p : FilePath'} (hp : alookup p st.p2g = none) :
    ∀ g ∈ st.groups, p ∉ g.2 := by
  intro g hg hmem
  have hl := h.memLook g hg p hmem
  rw [hp] at hl
  cases hl

/-- Two paths bound to the same group identity are connected. -/
lemma GBInv.same_group_conn {P : List (FilePath' × FilePath')} {st : GBState}
    (h : GBInv P st) {p q : FilePath'} {i : Nat}
    (hp : alookup p st.p2g = some i) (hq : alookup q st.p2g = some i) :
    pairConn P p q := by
  obtain ⟨m, hm, hpm⟩ := h.lookMem p i hp
  obtain ⟨m', hm', hqm⟩ := h.lookMem q i hq
  have he := members_eq_of_nodup h.idsNodup hm hm'
  rw [← he] at hqm
  exact ((h.sameConn p q).mp ⟨(i, m), hm, hpm, hqm⟩).1

/-- The invariant holds before any pair is processed. -/
lemma gbInv_nil : GBInv [] ⟨[], [], 0⟩ := by
  refine ⟨?_, ?_, ?_, ?_, ?_, ?_⟩
  · simp
  · intro g hg; cases hg
  · intro g hg; cases hg
  · intro p i hp; simp [alookup] at hp
  · intro p; simp [alookup, mentionedIn, pairAdj]
  · intro p q; simp [mentionedIn, pairAdj]

/-- Connectivity ignores the orientation of the appended pair. -/
lemma pairConn_swap (P : List (FilePath' × FilePath')) (a b p q : FilePath') :
    pairConn (P ++ [(a, b)]) p q ↔ pairConn (P ++ [(b, a)]) p q := by
  rw [pairConn_append_single, pairConn_append_single]
  tauto

/-- Occurrence ignores the orientation of the appended pair. -/
lemma mentionedIn_swap (P : List (FilePath' × FilePath')) (a b p : FilePath') :
    mentionedIn (P ++ [(a, b)]) p ↔ mentionedIn (P ++ [(b, a)]) p := by
  rw [mentionedIn_append, mentionedIn_append]
  tauto

/-- The invariant ignores the orientation of the appended pair. -/
lemma gbInv_swap {P : List (FilePath' × FilePath')} {a b : FilePath'} {st : GBState}
    (h : GBInv (P ++ [(a, b)]) st) : GBInv (P ++ [(b, a)]) st := by
  refine ⟨h.idsNodup, h.idsLt, h.memLook, h.lookMem, ?_, ?_⟩
  · intro p
    rw [← mentionedIn_swap P a b p]
    exact h.lookMent p
  · intro p q
    rw [← pairConn_swap P a b p q, ← mentionedIn_swap P a b p, ← mentionedIn_swap P a b q]
    exact h.sameConn p q

/-- Processing a pair whose endpoints already share a group keeps the
invariant with the state unchanged. -/
lemma gbInv_same {P : List (FilePath' × FilePath')} {st : GBState}
    (a b : FilePath') (g1 : Nat) (h : GBInv P st)
    (ha : alookup a st.p2g = some g1) (hb : alookup b st.p2g = some g1) :
    GBInv (P ++ [(a, b)]) st := by
  have hma : mentionedIn P a := h.mentioned_of_some ha
  have hmb : mentionedIn P b := h.mentioned_of_some hb
  have hconn_ab : pairConn P a b := h.same_group_conn ha hb
  refine ⟨h.idsNodup, h.idsLt, h.memLook, h.lookMem, ?_, ?_⟩
  · intro p
    rw [mentionedIn_append, h.lookMent p]
    constructor
    · exact Or.inl
    · rintro (hm | rfl | rfl)
      · exact hm
      · exact hma
      · exact hmb
  · intro p q
    rw [h.sameConn p q, pairConn_append_single, mentionedIn_append, mentionedIn_append]
    constructor
    · rintro ⟨hc, hp, hq⟩
      exact ⟨Or.inl hc, Or.inl hp, Or.inl hq⟩
    · rintro ⟨hc, hp, hq⟩
      refine ⟨?_, ?_, ?_⟩
      · rcases hc with hc | ⟨h1, h2⟩ | ⟨h1, h2⟩
        · exact hc
        · exact Relation.ReflTransGen.trans (Relation.ReflTransGen.trans h1 hconn_ab) h2
        · exact Relation.ReflTransGen.trans
            (Relation.ReflTransGen.trans h1 (pairConn_symm P hconn_ab)) h2
      · rcases hp with hp | rfl | rfl
        · exact hp
        · exact hma
        · exact hmb
      · rcases hq with hq | rfl | rfl
        · exact hq
        · exact hma
        · exact hmb

/-- Processing a pair with both endpoints unbound creates a fresh two-element
group and keeps the invariant. -/
lemma gbInv_new {P : List (FilePath' × FilePath')} {st : GBState} (a b : FilePath')
    (h : GBInv P st) (ha : alookup a st.p2g = none) (hb : alookup b st.p2g = none) :
    GBInv (P ++ [(a, b)])
      ⟨st.groups ++ [(st.next, [a, b])], (a, st.next) :: (b, st.next) :: st.p2g,
        st.next + 1⟩ := by
  have hna : ¬ mentionedIn P a := h.not_mentioned_of_none ha
  have hnb : ¬ mentionedIn P b := h.not_mentioned_of_none hb
  have hgroups_a := h.not_in_groups_of_none ha
  have hgroups_b := h.not_in_groups_of_none hb
  have hlook : ∀ p, alookup p ((a, st.next) :: (b, st.next) :: st.p2g) =
      if a = p ∨ b = p then some st.next else alookup p st.p2g := by
    intro p
    show (if a = p then some st.next else if b = p then some st.next
      else alookup p st.p2g) = _
    by_cases h1 : a = p
    · rw [if_pos h1, if_pos (Or.inl h1)]
    · rw [if_neg h1]
      by_cases h2 : b = p
      · rw [if_pos h2, if_pos (Or.inr h2)]
      · rw [if_neg h2, if_neg]
        rintro (hc | hc)
        · exact h1 hc
        · exact h2 hc
  refine ⟨?_, ?_, ?_, ?_, ?_, ?_⟩
  · rw [List.map_append, List.nodup_append]
    refine ⟨h.idsNodup, by simp, ?_⟩
    intro x hx hx2
    obtain ⟨g, hg, rfl⟩ := List.mem_map.mp hx
    simp only [List.map_cons, List.map_nil, List.mem_singleton] at hx2
    exact absurd (hx2 ▸ h.idsLt g hg) (lt_irrefl _)
  · intro g hg
    rcases List.mem_append.mp hg with hg | hg
    · exact Nat.lt_succ_of_lt (h.idsLt g hg)
    · rcases List.mem_singleton.mp hg with rfl
      exact Nat.lt_succ_self _
  · intro g hg p hp
    rcases List.mem_append.mp hg with hg | hg
    · rw [hlook p, if_neg]
      · exact h.memLook g hg p hp
      · rintro (rfl | rfl)
        · exact hgroups_a g hg hp
        · exact hgroups_b g hg hp
    · rcases List.mem_singleton.mp hg with rfl
      rw [hlook p]
      rcases List.mem_cons.mp hp with rfl | hp
      · rw [if_pos (Or.inl rfl)]
      · rcases List.mem_singleton.mp hp with rfl
        rw [if_pos (Or.inr rfl)]
  · intro p i hp
    rw [hlook p] at hp
    by_cases hc : a = p ∨ b = p
    · rw [if_pos hc] at hp
      obtain rfl : st.next = i := Option.some.inj hp
      refine ⟨[a, b], List.mem_append_right _ (List.mem_singleton_self _), ?_⟩
      rcases hc with rfl | rfl
      · exact List.mem_cons_self _ _
      · exact List.mem_cons_of_mem _ (List.mem_singleton_self _)
    · rw [if_neg hc] at hp
      obtain ⟨m, hm, hpm⟩ := h.lookMem p i hp
      exact ⟨m, List.mem_append_left _ hm, hpm⟩
  · intro p
    rw [hlook p, mentionedIn_append, ← h.lookMent p]
    by_cases hc : a = p ∨ b = p
    · rw [if_pos hc]
      simp only [Option.isSome_some, true_iff]
      rcases hc with rfl | rfl
      · exact Or.inr (Or.inl rfl)
      · exact Or.inr (Or.inr rfl)
    · rw [if_neg hc]
      constructor
      · exact Or.inl
      · rintro (hm | rfl | rfl)
        · exact hm
        · exact absurd (Or.inl rfl) hc
        · exact absurd (Or.inr rfl) hc
  · intro p q
    constructor
    · rintro ⟨g, hg, hp, hq⟩
      rcases List.mem_append.mp hg with hg | hg
      · obtain ⟨hc, hmp, hmq⟩ := (h.sameConn p q).mp ⟨g, hg, hp, hq⟩
        exact ⟨pairConn_mono (fun e he => List.mem_append_left _ he) hc,
          (mentionedIn_append P a b p).mpr (Or.inl hmp),
          (mentionedIn_append P a b q).mpr (Or.inl hmq)⟩
      · rcases List.mem_singleton.mp hg with rfl
        have hedge : pairConn (P ++ [(a, b)]) a b :=
          Relation.ReflTransGen.single
            (Or.inl (List.mem_append_right _ (List.mem_singleton_self _)))
        have hpe : p = a ∨ p = b := by
          rcases List.mem_cons.mp hp with h1 | h1
          · exact Or.inl h1
          · exact Or.inr (List.mem_singleton.mp h1)
        have hqe : q = a ∨ q = b := by
          rcases List.mem_cons.mp hq with h1 | h1
          · exact Or.inl h1
          · exact Or.inr (List.mem_singleton.mp h1)
        refine ⟨?_, ?_, ?_⟩
        · rcases hpe with h1 | h1 <;> rcases hqe with h2 | h2 <;> rw [h1, h2]
          · exact Relation.ReflTransGen.refl
          · exact hedge
          · exact pairConn_symm _ hedge
          · exact Relation.ReflTransGen.refl
        · rw [mentionedIn_append]
          rcases hpe with h1 | h1
          · exact Or.inr (Or.inl h1)
          · exact Or.inr (Or.inr h1)
        · rw [mentionedIn_append]
          rcases hqe with h1 | h1
          · exact Or.inr (Or.inl h1)
          · exact Or.inr (Or.inr h1)
    · rintro ⟨hc, hp, hq⟩
      rw [pairConn_append_single] at hc
      rw [mentionedIn_append] at hp hq
      have hca : ∀ x, pairConn P x a → x = a :=
        fun x hx => conn_eq_of_not_mentioned P x a hna hx
      have hcb : ∀ x, pairConn P x b → x = b :=
        fun x hx => conn_eq_of_not_mentioned P x b hnb hx
      have hac : ∀ x, pairConn P a x → a = x :=
        fun x hx => (hca x (pairConn_symm P hx)).symm
      have hbc : ∀ x, pairConn P b x → b = x :=
        fun x hx => (hcb x (pairConn_symm P hx)).symm
      have hnew : (st.next, [a, b]) ∈ st.groups ++ [(st.next, [a, b])] :=
        List.mem_append_right _ (List.mem_singleton_self _)
      have hmem_a : a ∈ [a, b] := List.mem_cons_self _ _
      have hmem_b : b ∈ [a, b] := List.mem_cons_of_mem _ (List.mem_singleton_self _)
      rcases hc with hc | ⟨h1, h2⟩ | ⟨h1, h2⟩
      · rcases hp with hp | hpa | hpb
        · rcases hq with hq | hqa | hqb
          · obtain ⟨g, hg, hpg, hqg⟩ := (h.sameConn p q).mpr ⟨hc, hp, hq⟩
            exact ⟨g, List.mem_append_left _ hg, hpg, hqg⟩
          · rw [hqa] at hc
            exact absurd (hca p hc ▸ hp) hna
          · rw [hqb] at hc
            exact absurd (hcb p hc ▸ hp) hnb
        · rw [hpa] at hc ⊢
          rw [(hac q hc).symm]
          exact ⟨(st.next, [a, b]), hnew, hmem_a, hmem_a⟩
        · rw [hpb] at hc ⊢
          rw [(hbc q hc).symm]
          exact ⟨(st.next, [a, b]), hnew, hmem_b, hmem_b⟩
      · rw [hca p h1, (hbc q h2).symm]
        exact ⟨(st.next, [a, b]), hnew, hmem_a, hmem_b⟩
      · rw [hcb p h1, (hac q h2).symm]
        exact ⟨(st.next, [a, b]), hnew, hmem_b, hmem_a⟩

/-- Processing a pair whose first endpoint is unbound and whose second endpoint
already has a group appends the first endpoint to that group and keeps the
invariant. -/
lemma gbInv_addLeft {P : List (FilePath' × FilePath')} {st : GBState}
    (a b : FilePath') (g2 : Nat) (h : GBInv P st)
    (ha : alookup a st.p2g = none) (hb : alookup b st.p2g = some g2) :
    GBInv (P ++ [(a, b)])
      ⟨updGroup st.groups g2 [a], (a, g2) :: st.p2g, st.next⟩ := by
  have hna : ¬ mentionedIn P a := h.not_mentioned_of_none ha
  have hmb : mentionedIn P b := h.mentioned_of_some hb
  have hgroups_a := h.not_in_groups_of_none ha
  obtain ⟨m2, hm2, hbm2⟩ := h.lookMem b g2 hb
  have hlook : ∀ p, alookup p ((a, g2) :: st.p2g) =
      if a = p then some g2 else alookup p st.p2g := fun p => rfl
  have hca : ∀ x, pairConn P x a → x = a :=
    fun x hx => conn_eq_of_not_mentioned P x a hna hx
  have hac : ∀ x, pairConn P a x → a = x :=
    fun x hx => (hca x (pairConn_symm P hx)).symm
  have hsame_m2 : ∀ x ∈ m2, ∀ y ∈ m2,
      pairConn P x y ∧ mentionedIn P x ∧ mentionedIn P y :=
    fun x hx y hy => (h.sameConn x y).mp ⟨(g2, m2), hm2, hx, hy⟩
  have hanew : a ∈ m2 ++ [a] := List.mem_append_right _ (List.mem_singleton_self _)
  have hgnew : (g2, m2 ++ [a]) ∈ updGroup st.groups g2 [a] :=
    mem_updGroup.mpr (Or.inl ⟨m2, hm2, rfl⟩)
  refine ⟨?_, ?_, ?_, ?_, ?_, ?_⟩
  · rw [updGroup_map_fst]
    exact h.idsNodup
  · intro g hg
    rcases mem_updGroup.mp hg with ⟨m, hm, rfl⟩ | ⟨hg', _⟩
    · exact h.idsLt (g2, m) hm
    · exact h.idsLt g hg'
  · intro g hg p hp
    rcases mem_updGroup.mp hg with ⟨m, hm, rfl⟩ | ⟨hg', _⟩
    · rcases List.mem_append.mp hp with hpm | hpa
      · rw [hlook p, if_neg]
        · exact h.memLook (g2, m) hm p hpm
        · intro he
          rw [← he] at hpm
          exact hgroups_a (g2, m) hm hpm
      · have hpa' : p = a := List.mem_singleton.mp hpa
        rw [hlook p, if_pos hpa'.symm]
    · rw [hlook p, if_neg]
      · exact h.memLook g hg' p hp
      · intro he
        rw [← he] at hp
        exact hgroups_a g hg' hp
  · intro p i hp
    rw [hlook p] at hp
    by_cases hpa : a = p
    · rw [if_pos hpa] at hp
      obtain rfl : g2 = i := Option.some.inj hp
      refine ⟨m2 ++ [a], hgnew, ?_⟩
      rw [← hpa]
      exact hanew
    · rw [if_neg hpa] at hp
      obtain ⟨m, hm, hpm⟩ := h.lookMem p i hp
      by_cases hig : i = g2
      · subst hig
        have hmm : m = m2 := members_eq_of_nodup h.idsNodup hm hm2
        rw [hmm] at hpm
        exact ⟨m2 ++ [a], hgnew, List.mem_append_left _ hpm⟩
      · exact ⟨m, mem_updGroup.mpr (Or.inr ⟨hm, hig⟩), hpm⟩
  · intro p
    rw [hlook p, mentionedIn_append]
    by_cases hpa : a = p
    · rw [if_pos hpa]
      simp only [Option.isSome_some, true_iff]
      exact Or.inr (Or.inl hpa.symm)
    · rw [if_neg hpa, h.lookMent p]
      constructor
      · exact Or.inl
      · rintro (hm | he | he)
        · exact hm
        · exact absurd he.symm hpa
        · rw [he]
          exact hmb
  · intro p q
    constructor
    · rintro ⟨g, hg, hp, hq⟩
      rcases mem_updGroup.mp hg with ⟨m, hm, rfl⟩ | ⟨hg', _⟩
      · have hmm : m = m2 := members_eq_of_nodup h.idsNodup hm hm2
        rw [hmm] at hp hq
        rcases List.mem_append.mp hp with hp' | hp'
        · rcases List.mem_append.mp hq with hq' | hq'
          · obtain ⟨hc, hmp, hmq⟩ := hsame_m2 p hp' q hq'
            exact ⟨pairConn_mono (fun e he => List.mem_append_left _ he) hc,
              (mentionedIn_append P a b p).mpr (Or.inl hmp),
              (mentionedIn_append P a b q).mpr (Or.inl hmq)⟩
          · have hqa : q = a := List.mem_singleton.mp hq'
            refine ⟨?_, ?_, ?_⟩
            · rw [pairConn_append_single]
              refine Or.inr (Or.inr ⟨(hsame_m2 p hp' b hbm2).1, ?_⟩)
              rw [hqa]
              exact Relation.ReflTransGen.refl
            · rw [mentionedIn_append]
              exact Or.inl (hsame_m2 p hp' p hp').2.1
            · rw [mentionedIn_append]
              exact Or.inr (Or.inl hqa)
        · have hpa : p = a := List.mem_singleton.mp hp'
          rcases List.mem_append.mp hq with hq' | hq'
          · refine ⟨?_, ?_, ?_⟩
            · rw [pairConn_append_single]
              refine Or.inr (Or.inl ⟨?_, (hsame_m2 b hbm2 q hq').1⟩)
              rw [hpa]
              exact Relation.ReflTransGen.refl
            · rw [mentionedIn_append]
              exact Or.inr (Or.inl hpa)
            · rw [mentionedIn_append]
              exact Or.inl (hsame_m2 q hq' q hq').2.1
          · have hqa : q = a := List.mem_singleton.mp hq'
            refine ⟨?_, ?_, ?_⟩
            · rw [hpa, hqa]
              exact Relation.ReflTransGen.refl
            · rw [mentionedIn_append]
              exact Or.inr (Or.inl hpa)
            · rw [mentionedIn_append]
              exact Or.inr (Or.inl hqa)
      · obtain ⟨hc, hmp, hmq⟩ := (h.sameConn p q).mp ⟨g, hg', hp, hq⟩
        exact ⟨pairConn_mono (fun e he => List.mem_append_left _ he) hc,
          (mentionedIn_append P a b p).mpr (Or.inl hmp),
          (mentionedIn_append P a b q).mpr (Or.inl hmq)⟩
    · rintro ⟨hc, hp, hq⟩
      rw [pairConn_append_single] at hc
      rw [mentionedIn_append] at hp hq
      have hcover : ∀ im : Nat × List FilePath', im ∈ st.groups →
          ∃ g' ∈ updGroup st.groups g2 [a], im.2 ⊆ g'.2 := by
        intro im him
        by_cases hig : im.1 = g2
        · refine ⟨(g2, im.2 ++ [a]), mem_updGroup.mpr (Or.inl ⟨im.2, ?_, rfl⟩),
            List.subset_append_left _ _⟩
          rw [← hig]
          exact him
        · exact ⟨im, mem_updGroup.mpr (Or.inr ⟨him, hig⟩), fun x hx => hx⟩
      have hid_of : ∀ g ∈ st.groups, b ∈ g.2 → (g2, g.2) ∈ st.groups := by
        intro g hg hbg
        have hl := h.memLook g hg b hbg
        rw [hb] at hl
        have : g.1 = g2 := (Option.some.inj hl).symm
        rw [← this]
        exact hg
      rcases hc with hc | ⟨h1, h2⟩ | ⟨h1, h2⟩
      · rcases hp with hp | hpa | hpb
        · rcases hq with hq | hqa | hqb
          · obtain ⟨g, hg, hpg, hqg⟩ := (h.sameConn p q).mpr ⟨hc, hp, hq⟩
            obtain ⟨g', hg', hsub⟩ := hcover g hg
            exact ⟨g', hg', hsub hpg, hsub hqg⟩
          · rw [hqa] at hc
            exact absurd (hca p hc ▸ hp) hna
          · rw [hqb] at hc ⊢
            obtain ⟨g, hg, hpg, hqg⟩ := (h.sameConn p b).mpr ⟨hc, hp, hmb⟩
            obtain ⟨g', hg', hsub⟩ := hcover g hg
            exact ⟨g', hg', hsub hpg, hsub hqg⟩
        · rw [hpa] at hc ⊢
          rw [(hac q hc).symm]
          exact ⟨(g2, m2 ++ [a]), hgnew, hanew, hanew⟩
        · rw [hpb] at hc ⊢
          rcases hq with hq | hqa | hqb
          · obtain ⟨g, hg, hpg, hqg⟩ := (h.sameConn b q).mpr ⟨hc, hmb, hq⟩
            obtain ⟨g', hg', hsub⟩ := hcover g hg
            exact ⟨g', hg', hsub hpg, hsub hqg⟩
          · rw [hqa] at hc
            exact absurd (hca b hc ▸ hmb) hna
          · rw [hqb]
            obtain ⟨g', hg', hsub⟩ := hcover (g2, m2) hm2
            exact ⟨g', hg', hsub hbm2, hsub hbm2⟩
      · rw [hca p h1]
        rcases hq with hq | hqa | hqb
        · obtain ⟨g, hg, hbg, hqg⟩ := (h.sameConn b q).mpr ⟨h2, hmb, hq⟩
          have hg2' : (g2, g.2) ∈ st.groups := hid_of g hg hbg
          have hm : g.2 = m2 := members_eq_of_nodup h.idsNodup hg2' hm2
          refine ⟨(g2, m2 ++ [a]), hgnew, hanew, List.mem_append_left _ ?_⟩
          rw [← hm]
          exact hqg
        · rw [hqa]
          exact ⟨(g2, m2 ++ [a]), hgnew, hanew, hanew⟩
        · rw [hqb]
          exact ⟨(g2, m2 ++ [a]), hgnew, hanew, List.mem_append_left _ hbm2⟩
      · rw [(hac q h2).symm]
        rcases hp with hp | hpa | hpb
        · obtain ⟨g, hg, hpg, hbg⟩ := (h.sameConn p b).mpr ⟨h1, hp, hmb⟩
          have hg2' : (g2, g.2) ∈ st.groups := hid_of g hg hbg
          have hm : g.2 = m2 := members_eq_of_nodup h.idsNodup hg2' hm2
          refine ⟨(g2, m2 ++ [a]), hgnew, List.mem_append_left _ ?_, hanew⟩
          rw [← hm]
          exact hpg
        · rw [hpa]
          exact ⟨(g2, m2 ++ [a]), hgnew, hanew, hanew⟩
        · rw [hpb]
          exact ⟨(g2, m2 ++ [a]), hgnew, List.mem_append_left _ hbm2, hanew⟩

/-- Processing a pair whose endpoints lie in two different groups merges the
second group into the first and keeps the invariant. -/
lemma gbInv_merge {P : List (FilePath' × FilePath')} {st : GBState}
    (a b : FilePath') (g1 g2 : Nat) (h : GBInv P st)
    (ha : alookup a st.p2g = some g1) (hb : alookup b st.p2g = some g2)
    (hne : g1 ≠ g2) :
    GBInv (P ++ [(a, b)])
      ⟨(updGroup st.groups g1 (membersOf st g2)).filter (fun g => g.1 != g2),
        (membersOf st g2).map (fun p => (p, g1)) ++ st.p2g, st.next⟩ := by
  have hma : mentionedIn P a := h.mentioned_of_some ha
  have hmb : mentionedIn P b := h.mentioned_of_some hb
  obtain ⟨mA, hmA, hamA⟩ := h.lookMem a g1 ha
  obtain ⟨mB, hmB, hbmB⟩ := h.lookMem b g2 hb
  have hm2 : membersOf st g2 = mB := by
    unfold membersOf
    rw [alookup_of_mem_nodup h.idsNodup hmB]
    rfl
  rw [hm2]
  have hlookA : ∀ x ∈ mA, alookup x st.p2g = some g1 :=
    fun x hx => h.memLook (g1, mA) hmA x hx
  have hlookB : ∀ x ∈ mB, alookup x st.p2g = some g2 :=
    fun x hx => h.memLook (g2, mB) hmB x hx
  have hsameA : ∀ x ∈ mA, ∀ y ∈ mA,
      pairConn P x y ∧ mentionedIn P x ∧ mentionedIn P y :=
    fun x hx y hy => (h.sameConn x y).mp ⟨(g1, mA), hmA, hx, hy⟩
  have hsameB : ∀ x ∈ mB, ∀ y ∈ mB,
      pairConn P x y ∧ mentionedIn P x ∧ mentionedIn P y :=
    fun x hx y hy => (h.sameConn x y).mp ⟨(g2, mB), hmB, hx, hy⟩
  have hlook : ∀ p, alookup p ((mB.map fun x => (x, g1)) ++ st.p2g) =
      if p ∈ mB then some g1 else alookup p st.p2g := by
    intro p
    rw [alookup_append, alookup_map_const]
    by_cases hp : p ∈ mB
    · rw [if_pos hp, if_pos hp]
    · rw [if_neg hp, if_neg hp]
  have hgmerged : (g1, mA ++ mB) ∈
      (updGroup st.groups g1 mB).filter (fun g => g.1 != g2) :=
    mem_filter_ne.mpr ⟨mem_updGroup.mpr (Or.inl ⟨mA, hmA, rfl⟩), hne⟩
  have hcanon : ∀ g ∈ st.groups, ∀ x ∈ g.2, ∀ i : Nat, ∀ mI : List FilePath',
      alookup x st.p2g = some i → (i, mI) ∈ st.groups → g.2 = mI := by
    intro g hg x hx i mI hlx hmI
    have hl := h.memLook g hg x hx
    rw [hlx] at hl
    have hgi : g.1 = i := (Option.some.inj hl).symm
    have hgI : (i, g.2) ∈ st.groups := by
      rw [← hgi]
      exact hg
    exact members_eq_of_nodup h.idsNodup hgI hmI
  refine ⟨?_, ?_, ?_, ?_, ?_, ?_⟩
  · have hsub : (((updGroup st.groups g1 mB).filter
        (fun g => g.1 != g2)).map Prod.fst).Sublist
        ((updGroup st.groups g1 mB).map Prod.fst) :=
      (List.filter_sublist _).map Prod.fst
    rw [updGroup_map_fst] at hsub
    exact List.Nodup.sublist hsub h.idsNodup
  · intro g hg
    rcases mem_updGroup.mp (mem_filter_ne.mp hg).1 with ⟨m, hm, rfl⟩ | ⟨hg', _⟩
    · exact h.idsLt (g1, m) hm
    · exact h.idsLt g hg'
  · intro g hg p hp
    rcases mem_updGroup.mp (mem_filter_ne.mp hg).1 with ⟨m, hm, rfl⟩ | ⟨hg', hne1⟩
    · rcases List.mem_append.mp hp with hpm | hpm
      · have hpl := h.memLook (g1, m) hm p hpm
        rw [hlook p, if_neg]
        · exact hpl
        · intro hpB
          rw [hlookB p hpB] at hpl
          exact hne (Option.some.inj hpl).symm
      · rw [hlook p, if_pos hpm]
    · have hpl := h.memLook g hg' p hp
      have hne2 : g.1 ≠ g2 := (mem_filter_ne.mp hg).2
      rw [hlook p, if_neg]
      · exact hpl
      · intro hpB
        rw [hlookB p hpB] at hpl
        exact hne2 (Option.some.inj hpl).symm
  · intro p i hp
    rw [hlook p] at hp
    by_cases hpB : p ∈ mB
    · rw [if_pos hpB] at hp
      obtain rfl : g1 = i := Option.some.inj hp
      exact ⟨mA ++ mB, hgmerged, List.mem_append_right _ hpB⟩
    · rw [if_neg hpB] at hp
      obtain ⟨m, hm, hpm⟩ := h.lookMem p i hp
      by_cases hig2 : i = g2
      · exfalso
        apply hpB
        have hmm : m = mB := by
          rw [hig2] at hm
          exact members_eq_of_nodup h.idsNodup hm hmB
        rw [← hmm]
        exact hpm
      · by_cases hig1 : i = g1
        · subst hig1
          refine ⟨m ++ mB, ?_, List.mem_append_left _ hpm⟩
          exact mem_filter_ne.mpr ⟨mem_updGroup.mpr (Or.inl ⟨m, hm, rfl⟩), hne⟩
        · refine ⟨m, ?_, hpm⟩
          exact mem_filter_ne.mpr ⟨mem_updGroup.mpr (Or.inr ⟨hm, hig1⟩), hig2⟩
  · intro p
    rw [hlook p, mentionedIn_append]
    by_cases hpB : p ∈ mB
    · rw [if_pos hpB]
      simp only [Option.isSome_some, true_iff]
      exact Or.inl (hsameB p hpB p hpB).2.1
    · rw [if_neg hpB, h.lookMent p]
      constructor
      · exact Or.inl
      · rintro (hm | he | he)
        · exact hm
        · rw [he]
          exact hma
        · rw [he]
          exact hmb
  · intro p q
    constructor
    · rintro ⟨g, hg, hp, hq⟩
      rcases mem_updGroup.mp (mem_filter_ne.mp hg).1 with ⟨m, hm, rfl⟩ | ⟨hg', _⟩
      · have hmmA : m = mA := members_eq_of_nodup h.idsNodup hm hmA
        rw [hmmA] at hp hq
        rcases List.mem_append.mp hp with hp' | hp'
        · rcases List.mem_append.mp hq with hq' | hq'
          · obtain ⟨hc, hmp, hmq⟩ := hsameA p hp' q hq'
            exact ⟨pairConn_mono (fun e he => List.mem_append_left _ he) hc,
              (mentionedIn_append P a b p).mpr (Or.inl hmp),
              (mentionedIn_append P a b q).mpr (Or.inl hmq)⟩
          · refine ⟨?_, ?_, ?_⟩
            · rw [pairConn_append_single]
              exact Or.inr (Or.inl ⟨(hsameA p hp' a hamA).1, (hsameB b hbmB q hq').1⟩)
            · rw [mentionedIn_append]
              exact Or.inl (hsameA p hp' p hp').2.1
            · rw [mentionedIn_append]
              exact Or.inl (hsameB q hq' q hq').2.1
        · rcases List.mem_append.mp hq with hq' | hq'
          · refine ⟨?_, ?_, ?_⟩
            · rw [pairConn_append_single]
              exact Or.inr (Or.inr ⟨(hsameB p hp' b hbmB).1, (hsameA a hamA q hq').1⟩)
            · rw [mentionedIn_append]
              exact Or.inl (hsameB p hp' p hp').2.1
            · rw [mentionedIn_append]
              exact Or.inl (hsameA q hq' q hq').2.1
          · obtain ⟨hc, hmp, hmq⟩ := hsameB p hp' q hq'
            exact ⟨pairConn_mono (fun e he => List.mem_append_left _ he) hc,
              (mentionedIn_append P a b p).mpr (Or.inl hmp),
              (mentionedIn_append P a b q).mpr (Or.inl hmq)⟩
      · obtain ⟨hc, hmp, hmq⟩ := (h.sameConn p q).mp ⟨g, hg', hp, hq⟩
        exact ⟨pairConn_mono (fun e he => List.mem_append_left _ he) hc,
          (mentionedIn_append P a b p).mpr (Or.inl hmp),
          (mentionedIn_append P a b q).mpr (Or.inl hmq)⟩
    · rintro ⟨hc, hp, hq⟩
      rw [pairConn_append_single] at hc
      rw [mentionedIn_append] at hp hq
      have hpm : mentionedIn P p := by
        rcases hp with hp | he | he
        · exact hp
        · rw [he]; exact hma
        · rw [he]; exact hmb
      have hqm : mentionedIn P q := by
        rcases hq with hq | he | he
        · exact hq
        · rw [he]; exact hma
        · rw [he]; exact hmb
      have hcover : ∀ im : Nat × List FilePath', im ∈ st.groups →
          ∃ g' ∈ (updGroup st.groups g1 mB).filter (fun g => g.1 != g2),
            im.2 ⊆ g'.2 := by
        intro im him
        by_cases hig2 : im.1 = g2
        · have himB : (g2, im.2) ∈ st.groups := by
            rw [← hig2]
            exact him
          have hmm : im.2 = mB := members_eq_of_nodup h.idsNodup himB hmB
          refine ⟨(g1, mA ++ mB), hgmerged, ?_⟩
          rw [hmm]
          exact List.subset_append_right _ _
        · by_cases hig1 : im.1 = g1
          · have himA : (g1, im.2) ∈ st.groups := by
              rw [← hig1]
              exact him
            refine ⟨(g1, im.2 ++ mB),
              mem_filter_ne.mpr ⟨mem_updGroup.mpr (Or.inl ⟨im.2, himA, rfl⟩), hne⟩,
              List.subset_append_left _ _⟩
          · exact ⟨im, mem_filter_ne.mpr ⟨mem_updGroup.mpr (Or.inr ⟨him, hig1⟩), hig2⟩,
              fun x hx => hx⟩
      rcases hc with hc | ⟨h1, h2⟩ | ⟨h1, h2⟩
      · obtain ⟨g, hg, hpg, hqg⟩ := (h.sameConn p q).mpr ⟨hc, hpm, hqm⟩
        obtain ⟨g', hg', hsub⟩ := hcover g hg
        exact ⟨g', hg', hsub hpg, hsub hqg⟩
      · obtain ⟨gP, hgP, hpgP, hagP⟩ := (h.sameConn p a).mpr ⟨h1, hpm, hma⟩
        obtain ⟨gQ, hgQ, hbgQ, hqgQ⟩ := (h.sameConn b q).mpr ⟨h2, hmb, hqm⟩
        have hpA : p ∈ mA := by
          have := hcanon gP hgP a hagP g1 mA ha hmA
          rw [← this]
          exact hpgP
        have hqB : q ∈ mB := by
          have := hcanon gQ hgQ b hbgQ g2 mB hb hmB
          rw [← this]
          exact hqgQ
        exact ⟨(g1, mA ++ mB), hgmerged, List.mem_append_left _ hpA,
          List.mem_append_right _ hqB⟩
      · obtain ⟨gP, hgP, hpgP, hbgP⟩ := (h.sameConn p b).mpr ⟨h1, hpm, hmb⟩
        obtain ⟨gQ, hgQ, hagQ, hqgQ⟩ := (h.sameConn a q).mpr ⟨h2, hma, hqm⟩
        have hpB : p ∈ mB := by
          have := hcanon gP hgP b hbgP g2 mB hb hmB
          rw [← this]
          exact hpgP
        have hqA : q ∈ mA := by
          have := hcanon gQ hgQ a hagQ g1 mA ha hmA
          rw [← this]
          exact hqgQ
        exact ⟨(g1, mA ++ mB), hgmerged, List.mem_append_right _ hpB,
          List.mem_append_left _ hqA⟩

/-- One step of the grouping loop preserves the invariant. -/
lemma gbStep_inv {P : List (FilePath' × FilePath')} {st : GBState}
    (pr : FilePath' × FilePath') (h : GBInv P st) :
    GBInv (P ++ [pr]) (gbStep st pr) := by
  obtain ⟨a, b⟩ := pr
  rcases h1 : alookup a st.p2g with _ | g1 <;> rcases h2 : alookup b st.p2g with _ | g2 <;>
    simp only [gbStep, h1, h2]
  · exact gbInv_new a b h h1 h2
  · exact gbInv_addLeft a b g2 h h1 h2
  · exact gbInv_swap (gbInv_addLeft b a g1 h h2 h1)
  · by_cases he : g1 = g2
    · rw [if_pos he]
      exact gbInv_same a b g1 h h1 (by rw [h2, he])
    · rw [if_neg he]
      exact gbInv_merge a b g1 g2 h h1 h2 he

/-- The grouping loop over an extended pair list factors through its last pair. -/
lemma runPairs_append (P : List (FilePath' × FilePath')) (pr : FilePath' × FilePath') :
    runPairs (P ++ [pr]) = gbStep (runPairs P) pr := by
  unfold runPairs
  rw [List.foldl_append]
  rfl

/-- The grouping loop establishes the invariant from any pair list. -/
lemma gbInv_runPairs (P : List (FilePath' × FilePath')) : GBInv P (runPairs P) := by
  induction P using List.reverseRecOn with
  | nil => exact gbInv_nil
  | append_singleton Q pr ih =>
    rw [runPairs_append]
    exact gbStep_inv pr ih

/-- Membership in the deduplicated multi-member groups. -/
lemma mem_resultGroups (P : List (FilePath' × FilePath')) (rg : List FilePath') :
    rg ∈ resultGroups P ↔
      ∃ g ∈ (runPairs P).groups, rg = dedupFirst g.2 ∧ 1 < rg.length := by
  unfold resultGroups
  rw [List.mem_filter, List.mem_map]
  constructor
  · rintro ⟨⟨g, hg, rfl⟩, hlen⟩
    exact ⟨g, hg, rfl, of_decide_eq_true hlen⟩
  · rintro ⟨g, hg, rfl, hlen⟩
    exact ⟨⟨g, hg, rfl⟩, decide_eq_true hlen⟩

/-- Two distinct identifiers share a deduplicated group exactly when they are
connected by the pairs. -/
lemma same_result_group_iff (P : List (FilePath' × FilePath')) (p q : FilePath')
    (hne : p ≠ q) :
    (∃ rg ∈ resultGroups P, p ∈ rg ∧ q ∈ rg) ↔ pairConn P p q := by
  constructor
  · rintro ⟨rg, hrg, hp, hq⟩
    obtain ⟨g, hg, rfl, _⟩ := (mem_resultGroups P rg).mp hrg
    rw [mem_dedupFirst] at hp hq
    exact (((gbInv_runPairs P).sameConn p q).mp ⟨g, hg, hp, hq⟩).1
  · intro hconn
    obtain ⟨hmp, hmq⟩ := conn_mentioned P p q hconn hne
    obtain ⟨g, hg, hp, hq⟩ := ((gbInv_runPairs P).sameConn p q).mpr ⟨hconn, hmp, hmq⟩
    refine ⟨dedupFirst g.2, ?_, (mem_dedupFirst _ _).mpr hp, (mem_dedupFirst _ _).mpr hq⟩
    rw [mem_resultGroups]
    exact ⟨g, hg, rfl, one_lt_length_of_two_mem ((mem_dedupFirst _ _).mpr hp)
      ((mem_dedupFirst _ _).mpr hq) hne⟩

/-- Every deduplicated group is duplicate-free with more than one member. -/
lemma resultGroups_nodup_mem (P : List (FilePath' × FilePath')) :
    ∀ rg ∈ resultGroups P, rg.Nodup ∧ 1 < rg.length := by
  intro rg hrg
  obtain ⟨g, _, rfl, hlen⟩ := (mem_resultGroups P rg).mp hrg
  exact ⟨dedupFirst_nodup _, hlen⟩

/-- Distinct deduplicated groups are disjoint. -/
lemma resultGroups_pairwise_disjoint (P : List (FilePath' × FilePath')) :
    (resultGroups P).Pairwise (fun g1 g2 => ∀ x ∈ g1, x ∉ g2) := by
  have hinv := gbInv_runPairs P
  have hmapped : ((runPairs P).groups.map fun g => dedupFirst g.2).Pairwise
      (fun g1 g2 => ∀ x ∈ g1, x ∉ g2) := by
    rw [List.pairwise_map]
    have hids : (runPairs P).groups.Pairwise (fun g1 g2 => g1.1 ≠ g2.1) :=
      List.pairwise_map.mp hinv.idsNodup
    refine hids.imp_of_mem ?_
    intro g1 g2 hg1 hg2 hne12 x hx1 hx2
    rw [mem_dedupFirst] at hx1 hx2
    have e1 := hinv.memLook _ hg1 x hx1
    have e2 := hinv.memLook _ hg2 x hx2
    rw [e1] at e2
    exact hne12 (Option.some.inj e2)
  exact List.Pairwise.sublist (List.filter_sublist _) hmapped

/-- The cluster-growth fold appends the same fresh block to the cluster and to
the used set. -/
lemma foldl_growStep_delta (l : List FilePath') :
    ∀ c0 u0 : List FilePath', ∃ δ : List FilePath',
      l.foldl growStep (c0, u0) = (c0 ++ δ, u0 ++ δ) ∧ δ.Nodup ∧ ∀ y ∈ δ, y ∉ u0 := by
  induction l with
  | nil => exact fun c0 u0 => ⟨[], by simp, List.nodup_nil, by simp⟩
  | cons x xs ih =>
    intro c0 u0
    rw [List.foldl_cons]
    by_cases hx : x ∈ u0
    · have hstep : growStep (c0, u0) x = (c0, u0) := by simp [growStep, hx]
      rw [hstep]
      exact ih c0 u0
    · have hstep : growStep (c0, u0) x = (c0 ++ [x], u0 ++ [x]) := by simp [growStep, hx]
      rw [hstep]
      obtain ⟨δ, heq, hnd, hfresh⟩ := ih (c0 ++ [x]) (u0 ++ [x])
      refine ⟨x :: δ, ?_, ?_, ?_⟩
      · rw [heq]
        simp
      · refine List.nodup_cons.mpr ⟨fun hxd => ?_, hnd⟩
        exact hfresh x hxd (List.mem_append_right _ (List.mem_singleton_self _))
      · intro y hy
        rcases List.mem_cons.mp hy with rfl | hy
        · exact hx
        · exact fun hu => hfresh y hy (List.mem_append_left _ hu)

/-- The seed pass keeps its clusters inside the used set, pairwise disjoint,
duplicate-free and of size at least two. -/
lemma foldl_seedStep_inv (ip : List (FilePath' × FilePath')) (l : List FilePath') :
    ∀ st : SplitState,
      (∀ c ∈ st.clusters, ∀ x ∈ c, x ∈ st.used) →
      st.clusters.Pairwise (fun c1 c2 => ∀ x ∈ c1, x ∉ c2) →
      (∀ c ∈ st.clusters, c.Nodup ∧ 2 ≤ c.length) →
      (∀ c ∈ (l.foldl (seedStep ip) st).clusters, ∀ x ∈ c,
          x ∈ (l.foldl (seedStep ip) st).used) ∧
      (l.foldl (seedStep ip) st).clusters.Pairwise (fun c1 c2 => ∀ x ∈ c1, x ∉ c2) ∧
      (∀ c ∈ (l.foldl (seedStep ip) st).clusters, c.Nodup ∧ 2 ≤ c.length) := by
  induction l with
  | nil => exact fun st h1 h2 h3 => ⟨h1, h2, h3⟩
  | cons s ys ih =>
    intro st h1 h2 h3
    rw [List.foldl_cons]
    by_cases hs : s ∈ st.used
    · have hst : seedStep ip st s = st := by simp [seedStep, hs]
      rw [hst]
      exact ih st h1 h2 h3
    · obtain ⟨δ, heq, hnd, hfresh⟩ :=
        foldl_growStep_delta (ip.foldl (connStep s (st.used ++ [s])) []) [s]
          (st.used ++ [s])
    
      have hstep : seedStep ip st s =
          ⟨if 1 < ([s] ++ δ).length then st.clusters ++ [[s] ++ δ] else st.clusters,
            (st.used ++ [s]) ++ δ⟩ := by
        simp only [seedStep, if_neg hs]
        rw [heq]
      rw [hstep]
      have hsub_used : ∀ x ∈ st.used, x ∈ (st.used ++ [s]) ++ δ :=
        fun x hx => List.mem_append_left _ (List.mem_append_left _ hx)
      have hcl_nodup : ([s] ++ δ).Nodup := by
        rw [List.singleton_append]
        refine List.nodup_cons.mpr ⟨fun hsd => ?_, hnd⟩
        exact hfresh s hsd (List.mem_append_right _ (List.mem_singleton_self _))
      have hcl_used : ∀ x ∈ [s] ++ δ, x ∈ (st.used ++ [s]) ++ δ := by
        intro x hx
        rcases List.mem_append.mp hx with hx | hx
        · exact List.mem_append_left _ (List.mem_append_right _ hx)
        · exact List.mem_append_right _ hx
      have hcl_fresh : ∀ x ∈ [s] ++ δ, x ∉ st.used := by
        intro x hx
        rcases List.mem_append.mp hx with hx | hx
        · rw [List.mem_singleton] at hx
          rw [hx]
          exact hs
        · exact fun hu => hfresh x hx (List.mem_append_left _ hu)
      apply ih
      · show ∀ c ∈ (if 1 < ([s] ++ δ).length then st.clusters ++ [[s] ++ δ]
            else st.clusters), ∀ x ∈ c, x ∈ (st.used ++ [s]) ++ δ
        intro c hc x hx
        by_cases hlen : 1 < ([s] ++ δ).length
        · rw [if_pos hlen] at hc
          rcases List.mem_append.mp hc with hc | hc
          · exact hsub_used x (h1 c hc x hx)
          · rw [List.mem_singleton] at hc
            rw [hc] at hx
            exact hcl_used x hx
        · rw [if_neg hlen] at hc
          exact hsub_used x (h1 c hc x hx)
      · show (if 1 < ([s] ++ δ).length then st.clusters ++ [[s] ++ δ]
            else st.clusters).Pairwise (fun c1 c2 => ∀ x ∈ c1, x ∉ c2)
        by_cases hlen : 1 < ([s] ++ δ).length
        · rw [if_pos hlen, List.pairwise_append]
          refine ⟨h2, by simp, ?_⟩
          intro c1 hc1 c2 hc2 x hx1 hx2
          rw [List.mem_singleton] at hc2
          rw [hc2] at hx2
          exact hcl_fresh x hx2 (h1 c1 hc1 x hx1)
        · rw [if_neg hlen]
          exact h2
      · show ∀ c ∈ (if 1 < ([s] ++ δ).length then st.clusters ++ [[s] ++ δ]
            else st.clusters), c.Nodup ∧ 2 ≤ c.length
        intro c hc
        by_cases hlen : 1 < ([s] ++ δ).length
        · rw [if_pos hlen] at hc
          rcases List.mem_append.mp hc with hc | hc
          · exact h3 c hc
          · rw [List.mem_singleton] at hc
            rw [hc]
            refine ⟨hcl_nodup, ?_⟩
            omega
        · rw [if_neg hlen] at hc
          exact h3 c hc

/-- The invariant of the seed pass from the empty initial state. -/
lemma seedPass_inv (ip : List (FilePath' × FilePath')) (l : List FilePath') :
    (∀ c ∈ (seedPass ip l).clusters, ∀ x ∈ c, x ∈ (seedPass ip l).used) ∧
    (seedPass ip l).clusters.Pairwise (fun c1 c2 => ∀ x ∈ c1, x ∉ c2) ∧
    (∀ c ∈ (seedPass ip l).clusters, c.Nodup ∧ 2 ≤ c.length) :=
  foldl_seedStep_inv ip l ⟨[], []⟩ (by simp) (by simp) (by simp)

/-- The sub-clusters returned by `split_large_group` are duplicate-free, have
at least two members each, and are pairwise disjoint (given the group itself
is duplicate-free with at least two members, as the caller guarantees). -/
lemma split_large_group_props (g : List FilePath') (sp : List (FilePath' × FilePath'))
    (hg : g.Nodup) (hlen : 2 ≤ g.length) :
    (∀ c ∈ split_large_group g sp, c.Nodup ∧ 2 ≤ c.length) ∧
    (split_large_group g sp).Pairwise (fun c1 c2 => ∀ x ∈ c1, x ∉ c2) := by
  rw [split_large_group_eq]
  split_ifs with hemp
  · constructor
    · intro c hc
      rw [List.mem_singleton] at hc
      rw [hc]
      exact ⟨hg, hlen⟩
    · simp
  · obtain ⟨_, hpw, hsz⟩ := seedPass_inv (internalPairs g sp)
      (sortDesc (connectionCount (internalPairs g sp)) g)
    exact ⟨hsz, hpw⟩

/-- Flat-mapping disjoint groups through a member-preserving, internally
disjoint refinement yields pairwise disjoint lists. -/
lemma pairwise_disjoint_flatMap {α : Type} (l : List (List α)) (f : List α → List (List α))
    (hl : l.Pairwise (fun g1 g2 => ∀ x ∈ g1, x ∉ g2))
    (hin : ∀ g ∈ l, (f g).Pairwise (fun c1 c2 => ∀ x ∈ c1, x ∉ c2))
    (hsub : ∀ g ∈ l, ∀ c ∈ f g, ∀ x ∈ c, x ∈ g) :
    (l.flatMap f).Pairwise (fun c1 c2 => ∀ x ∈ c1, x ∉ c2) := by
  induction l with
  | nil => simp
  | cons g rest ih =>
    rw [List.flatMap_cons, List.pairwise_append]
    rw [List.pairwise_cons] at hl
    refine ⟨hin g (List.mem_cons_self _ _),
      ih hl.2 (fun g' hg' => hin g' (List.mem_cons_of_mem _ hg'))
        (fun g' hg' => hsub g' (List.mem_cons_of_mem _ hg')), ?_⟩
    intro c1 hc1 c2 hc2 x hx1 hx2
    obtain ⟨g', hg', hc2'⟩ := List.mem_flatMap.mp hc2
    exact hl.1 g' hg' x (hsub g (List.mem_cons_self _ _) c1 hc1 x hx1)
      (hsub g' (List.mem_cons_of_mem _ hg') c2 hc2' x hx2)

/-- A flat map whose function returns singletons is the identity. -/
lemma flatMap_eq_self {α : Type} (l : List α) (f : α → List α)
    (h : ∀ x ∈ l, f x = [x]) : l.flatMap f = l := by
  induction l with
  | nil => rfl
  | cons x xs ih =>
    rw [List.flatMap_cons, h x (List.mem_cons_self _ _),
      ih (fun y hy => h y (List.mem_cons_of_mem _ hy))]
    rfl

/-- When no deduplicated group exceeds the 20-member cap, the splitting stage
is the identity. -/
lemma group_similar_images_of_cap (P : List (FilePath' × FilePath'))
    (hcap : ∀ g ∈ resultGroups P, g.length ≤ 20) :
    group_similar_images P = resultGroups P := by
  unfold group_similar_images
  by_cases hP : P.isEmpty
  · rw [if_pos hP]
    have hnil : P = [] := List.isEmpty_iff.mp hP
    rw [hnil]
    rfl
  · rw [if_neg hP]
    apply flatMap_eq_self
    intro g hg
    rw [if_neg (Nat.not_lt.mpr (hcap g hg))]

/-- Under the cap, an identifier appears in some output group exactly when it
is connected to a different identifier. -/
lemma covered_iff (P : List (FilePath' × FilePath'))
    (hcap : ∀ g ∈ resultGroups P, g.length ≤ 20) (p : FilePath') :
    (∃ g ∈ group_similar_images P, p ∈ g) ↔ ∃ q, q ≠ p ∧ pairConn P p q := by
  rw [group_similar_images_of_cap P hcap]
  constructor
  · rintro ⟨rg, hrg, hp⟩
    obtain ⟨hnd, hlen⟩ := resultGroups_nodup_mem P rg hrg
    obtain ⟨q, hq, hqp⟩ := exists_other_mem hnd (by omega) hp
    exact ⟨q, hqp, (same_result_group_iff P p q hqp.symm).mp ⟨rg, hrg, hp, hq⟩⟩
  · rintro ⟨q, hqp, hconn⟩
    obtain ⟨rg, hrg, hp, _⟩ := (same_result_group_iff P p q hqp.symm).mpr hconn
    exact ⟨rg, hrg, hp⟩

/-- The cap hypothesis transfers along a permutation of the pairs. -/
lemma cap_transfer {P P' : List (FilePath' × FilePath')} (hperm : P.Perm P')
    (hcap : ∀ g ∈ resultGroups P, g.length ≤ 20) :
    ∀ g' ∈ resultGroups P', g'.length ≤ 20 := by
  intro g' hg'
  by_contra hbig
  have hbig' : 20 < g'.length := by omega
  obtain ⟨hnd', hlen'⟩ := resultGroups_nodup_mem P' g' hg'
  obtain ⟨p0, hp0⟩ : ∃ p0, p0 ∈ g' := by
    cases g' with
    | nil => simp at hlen'
    | cons x xs => exact ⟨x, List.mem_cons_self _ _⟩
  have hconn' : ∀ q ∈ g', q ≠ p0 → pairConn P p0 q := by
    intro q hq hqne
    have hc := (same_result_group_iff P' p0 q hqne.symm).mp ⟨g', hg', hp0, hq⟩
    exact (pairConn_perm hperm p0 q).mpr hc
  obtain ⟨q0, hq0, hq0ne⟩ := exists_other_mem hnd' (by omega) hp0
  obtain ⟨rg, hrg, hprg, _⟩ :=
    (same_result_group_iff P p0 q0 hq0ne.symm).mpr (hconn' q0 hq0 hq0ne)
  have hsub : ∀ q ∈ g', q ∈ rg := by
    intro q hq
    by_cases hqp : q = p0
    · rw [hqp]
      exact hprg
    · obtain ⟨rg2, hrg2, hprg2, hqrg2⟩ :=
        (same_result_group_iff P p0 q (Ne.symm hqp)).mpr (hconn' q hq hqp)
      by_cases hrr : rg = rg2
      · rw [hrr]
        exact hqrg2
      · exfalso
        have hsymm : Symmetric (fun g1 g2 : List FilePath' => ∀ x ∈ g1, x ∉ g2) := by
          intro u v huv x hxv hxu
          exact huv x hxu hxv
        exact List.Pairwise.forall hsymm (resultGroups_pairwise_disjoint P)
          hrg hrg2 hrr p0 hprg hprg2
  have hlenle : g'.length ≤ rg.length :=
    (List.subperm_of_subset hnd' fun x hx => hsub x hx).length_le
  have hle := hcap rg hrg
  omega

/-- Claim C3 counterexample: the output of `group_similar_images` depends on
the order of the input pairs (the two reorderings below yield different group
lists), and an identifier occurring only in a self-pair is dropped from the
output, so the groups do not partition all identifiers occurring in pairs. -/
theorem c3_counterexample :
    group_similar_images [("a", "b"), ("c", "d")] ≠
      group_similar_images [("c", "d"), ("a", "b")] ∧
    List.Perm [(("a" : FilePath'), ("b" : FilePath')), ("c", "d")]
      [("c", "d"), ("a", "b")] ∧
    group_similar_images [("x", "x")] = [] := by
  refine ⟨by decide, by decide, by decide⟩

/-- Claim C3 (amended): `group_similar_images` of the empty pair list is
empty; every output group has at least two members and no repeated member; no
identifier appears in two different output groups; and whenever no
deduplicated connected component exceeds the 20-member cap, two distinct
identifiers share an output group exactly when they are connected by a chain
of pairs, so the set of co-grouped identifier pairs — though not the output
list itself — is independent of the order of the input pairs. -/
theorem c3_grouping_properties (pairs : List (FilePath' × FilePath')) :
    group_similar_images [] = [] ∧
    (∀ g ∈ group_similar_images pairs, 2 ≤ g.length ∧ g.Nodup) ∧
    (group_similar_images pairs).Pairwise (fun g1 g2 => ∀ x ∈ g1, x ∉ g2) ∧
    ((∀ g ∈ resultGroups pairs, g.length ≤ 20) →
      (∀ p q, p ≠ q →
        ((∃ g ∈ group_similar_images pairs, p ∈ g ∧ q ∈ g) ↔ pairConn pairs p q)) ∧
      (∀ pairs2, pairs.Perm pairs2 → ∀ p q,
        ((∃ g ∈ group_similar_images pairs, p ∈ g ∧ q ∈ g) ↔
          (∃ g ∈ group_similar_images pairs2, p ∈ g ∧ q ∈ g)))) := by
  refine ⟨rfl, ?_, ?_, ?_⟩
  · intro g hg
    unfold group_similar_images at hg
    split_ifs at hg with hP
    · cases hg
    · obtain ⟨rg, hrg, hgin⟩ := List.mem_flatMap.mp hg
      obtain ⟨hnd, hlen⟩ := resultGroups_nodup_mem pairs rg hrg
      by_cases hbig : 20 < rg.length
      · rw [if_pos hbig] at hgin
        obtain ⟨hnd2, hlen2⟩ :=
          (split_large_group_props rg pairs hnd (by omega)).1 g hgin
        exact ⟨hlen2, hnd2⟩
      · rw [if_neg hbig] at hgin
        rw [List.mem_singleton] at hgin
        rw [hgin]
        exact ⟨by omega, hnd⟩
  · unfold group_similar_images
    split_ifs with hP
    · simp
    · apply pairwise_disjoint_flatMap
      · exact resultGroups_pairwise_disjoint pairs
      · intro g hg
        by_cases hbig : 20 < g.length
        · rw [if_pos hbig]
          obtain ⟨hnd, hlen⟩ := resultGroups_nodup_mem pairs g hg
          exact (split_large_group_props g pairs hnd (by omega)).2
        · rw [if_neg hbig]
          simp
      · intro g hg c hc x hx
        by_cases hbig : 20 < g.length
        · rw [if_pos hbig] at hc
          exact split_large_group_subset g pairs c hc x hx
        · rw [if_neg hbig] at hc
          rw [List.mem_singleton] at hc
          rw [hc] at hx
          exact hx
  · intro hcap
    have hiff : ∀ p q : FilePath', p ≠ q →
        ((∃ g ∈ group_similar_images pairs, p ∈ g ∧ q ∈ g) ↔ pairConn pairs p q) := by
      intro p q hne
      rw [group_similar_images_of_cap pairs hcap]
      exact same_result_group_iff pairs p q hne
    refine ⟨hiff, ?_⟩
    intro pairs2 hperm p q
    have hcap2 := cap_transfer hperm hcap
    by_cases hpq : p = q
    · subst hpq
      have e1 : (∃ g ∈ group_similar_images pairs, p ∈ g ∧ p ∈ g) ↔
          ∃ g ∈ group_similar_images pairs, p ∈ g := by
        constructor
        · rintro ⟨g, hg, hp, _⟩
          exact ⟨g, hg, hp⟩
        · rintro ⟨g, hg, hp⟩
          exact ⟨g, hg, hp, hp⟩
      have e2 : (∃ g ∈ group_similar_images pairs2, p ∈ g ∧ p ∈ g) ↔
          ∃ g ∈ group_similar_images pairs2, p ∈ g := by
        constructor
        · rintro ⟨g, hg, hp, _⟩
          exact ⟨g, hg, hp⟩
        · rintro ⟨g, hg, hp⟩
          exact ⟨g, hg, hp, hp⟩
      rw [e1, e2, covered_iff pairs hcap p, covered_iff pairs2 hcap2 p]
      constructor
      · rintro ⟨r, hr, hconn⟩
        exact ⟨r, hr, (pairConn_perm hperm p r).mp hconn⟩
      · rintro ⟨r, hr, hconn⟩
        exact ⟨r, hr, (pairConn_perm hperm p r).mpr hconn⟩
    · rw [hiff p q hpq]
      rw [show (∃ g ∈ group_similar_images pairs2, p ∈ g ∧ q ∈ g) ↔
          pairConn pairs2 p q from by
        rw [group_similar_images_of_cap pairs2 hcap2]
        exact same_result_group_iff pairs2 p q hpq]
      exact pairConn_perm hperm p q

/-- The grouping properties hold concretely: in the run on the chain
a–b, b–c the cap is respected, and a and c end up co-grouped, being connected. -/
theorem c3_grouping_properties_witness :
    (∀ g ∈ resultGroups [("a", "b"), ("b", "c")], g.length ≤ 20) ∧
    (("a" : FilePath') ≠ "c") ∧
    ((∃ g ∈ group_similar_images [("a", "b"), ("b", "c")], "a" ∈ g ∧ "c" ∈ g) ↔
      pairConn [("a", "b"), ("b", "c")] "a" "c") :=
  ⟨by decide, by decide,
    ((c3_grouping_properties [("a", "b"), ("b", "c")]).2.2.2 (by decide)).1
      "a" "c" (by decide)⟩
